import Mathlib

/-!
reinventrecap: record parser, text normaliser, word counts, persistence.

A shallow embedding of `main.go` (package `main` of a-h/reinventrecap) and the
properties of its specification that can be settled on it.

Modelling conventions.

* Go `string` values are Lean `String`s (sequences of Unicode scalar values);
  the raw corpus and the store are UTF-8 text.
* Go `int` counters (`lineIndex`, `postCount`, the word counts) are `Nat`: each
  is bounded by the number of bytes of the input held in memory, so the 64-bit
  wrap-around of `int` is out of reach.
* A Go slice is a `List`; an out-of-range slice index (a run-time panic) is the
  `none` result of the function that performs it.
* A Go `map[string]int` is an association list with one entry per key; a
  `map[string]struct{}` used as a set is membership in a list.
* Collaborators outside the repository (the Unicode tables of package
  `unicode`, the search index, `json.Unmarshal`) are parameters.  The parts of
  the Go standard library whose results the properties below depend on (`time.Parse` for
  the one layout used, `regexp` for the one pattern used, `json.Marshal`,
  `bufio.Scanner`) are modelled as Lean functions next to their callers.
* Output on standard output (`fmt.Println`) is not part of the state.
-/

namespace ReinventRecap

/-! ## Data model -/

/-- A `time.Time` value as this program produces it: midnight UTC of a calendar
date.  `time.Parse` with a date-only layout yields hour, minute, second and
nanosecond zero in UTC, and the zero `time.Time` is 1 January of year 1. -/
structure Time where
  year : Nat
  month : Nat
  day : Nat
deriving DecidableEq, Repr

/-- The zero value `time.Time{}`: January 1, year 1, 00:00:00 UTC. -/
def Time.zero : Time := ⟨1, 1, 1⟩

/-- Go `type post struct { Title string; Date time.Time; Desc string }`. -/
structure post where
  Title : String
  Date : Time
  Desc : String
deriving DecidableEq, Repr

/-- The zero value `post{}`. -/
def post.zero : post := ⟨"", Time.zero, ""⟩

/-! ## Strings -/

/-- Splitting of a character sequence at every occurrence of a separator
character: `strings.Split` for a one-character separator.  The result always
has at least one piece; the pieces of the empty sequence are one empty piece. -/
def splitChars (sep : Char) : List Char → List (List Char)
  | [] => [[]]
  | c :: cs =>
    if c = sep then [] :: splitChars sep cs
    else match splitChars sep cs with
      | [] => [[c]]
      | w :: ws => (c :: w) :: ws

/-- Go `strings.Split(s, sep)` for a separator of one character. -/
def split (s : String) (sep : Char) : List String :=
  (splitChars sep s.data).map String.mk

/-- Go `strings.TrimPrefix(s, label)`. -/
def trimLabel (s label : String) : String :=
  if label.data.isPrefixOf s.data then ⟨s.data.drop label.data.length⟩ else s

/-! ## Text normaliser -/

/-- The three functions of Go package `unicode` / `strings` that the normaliser
calls on single runes: `unicode.IsPunct`, `unicode.IsNumber` and the per-rune
mapping `unicode.ToLower` applied by `strings.ToLower`.  Their tables are
outside the repository. -/
structure RuneTables where
  isPunct : Char → Bool
  isNumber : Char → Bool
  toLower : Char → Char

/-- Code points below U+0080 of Unicode general category P (punctuation):
the characters `! " # % & ' ( ) * , - . / : ; ? @ [ \ ] _` and the two braces. -/
def asciiPunctCodes : List Nat :=
  [0x21, 0x22, 0x23, 0x25, 0x26, 0x27, 0x28, 0x29, 0x2A, 0x2C, 0x2D, 0x2E, 0x2F,
   0x3A, 0x3B, 0x3F, 0x40, 0x5B, 0x5C, 0x5D, 0x5F, 0x7B, 0x7D]

/-- The Unicode tables restricted to ASCII: on code points below U+0080 these
are the values of `unicode.IsPunct`, `unicode.IsNumber` and `unicode.ToLower`;
code points from U+0080 on are left unclassified and unchanged. -/
def asciiTables : RuneTables where
  isPunct c := asciiPunctCodes.contains c.toNat
  isNumber c := c.isDigit
  toLower c := c.toLower

/-- Properties of Go's Unicode tables that idempotence of the normaliser rests
on: the hyphen-minus is punctuation; lower-casing a rune that is neither
punctuation nor a number gives such a rune again, and one that lower-casing
leaves fixed; only the space lower-cases to the space. -/
structure RuneTables.Stable (U : RuneTables) : Prop where
  hyphen : U.isPunct '-' = true
  keep : ∀ c, U.isPunct c = false → U.isNumber c = false →
    U.isPunct (U.toLower c) = false ∧ U.isNumber (U.toLower c) = false
  idem : ∀ c, U.isPunct c = false → U.isNumber c = false →
    U.toLower (U.toLower c) = U.toLower c
  space : ∀ c, U.toLower c = ' ' → c = ' '

/-- The `stopwords` table of `main.go`. -/
def stopwords : List String :=
  ["i", "me", "my", "myself", "we", "our", "ours", "ourselves", "you", "your",
   "yours", "yourself", "yourselves", "he", "him", "his", "himself", "she",
   "her", "hers", "herself", "it", "its", "itself", "they", "them", "their",
   "theirs", "themselves", "what", "which", "who", "whom", "this", "that",
   "these", "those", "am", "is", "are", "was", "were", "be", "been", "being",
   "have", "has", "had", "having", "do", "does", "did", "doing", "a", "an",
   "the", "and", "but", "if", "or", "because", "as", "until", "while", "of",
   "at", "by", "for", "with", "about", "against", "between", "into", "through",
   "during", "before", "after", "above", "below", "to", "from", "up", "down",
   "in", "out", "on", "off", "over", "under", "again", "further", "then",
   "once", "here", "there", "when", "where", "why", "how", "all", "any", "both",
   "each", "few", "more", "most", "other", "some", "such", "no", "nor", "not",
   "only", "own", "same", "so", "than", "too", "very", "s", "t", "can", "will",
   "just", "don", "should", "now"]

/-- Membership in `stopWordsMap`, the set that `init` fills from `stopwords`. -/
def inStopWordsMap (s : String) : Bool := stopwords.contains s

/-- After a `v` and one digit: the rest of `\d+\.\d+`, that is more digits, a
dot, and one digit (an unanchored search needs no more than the first digit of
the last `\d+`). -/
def versionRest : List Char → Bool
  | [] => false
  | c :: cs =>
    if c.isDigit then versionRest cs
    else c = '.' && (match cs with
      | d :: _ => d.isDigit
      | [] => false)

/-- The pattern `v\d+\.\d+` matches at the start of the sequence. -/
def versionAt : List Char → Bool
  | c :: d :: cs => c = 'v' && d.isDigit && versionRest cs
  | _ => false

/-- The pattern `v\d+\.\d+` matches somewhere in the sequence. -/
def versionSearch : List Char → Bool
  | [] => false
  | c :: cs => versionAt (c :: cs) || versionSearch cs

/-- Go `versionRegexp.MatchString(s)` for `versionRegexp = v\d+\.\d+`: an
unanchored search, `\d` being the ASCII digits. -/
def versionRegexpMatchString (s : String) : Bool := versionSearch s.data

/-- What it means for a character sequence to contain a match of
`v\d+\.\d+`, stated on the shape of the match. -/
def MatchesVersion (s : List Char) : Prop :=
  ∃ pre ds es suf, s = pre ++ 'v' :: ds ++ '.' :: es ++ suf ∧
    ds ≠ [] ∧ es ≠ [] ∧ (∀ c ∈ ds, c.isDigit = true) ∧ (∀ c ∈ es, c.isDigit = true)

/-- Go `ignoreWord`. -/
def ignoreWord (s : String) : Bool :=
  if s = "" then true
  else if inStopWordsMap s then true
  else if versionRegexpMatchString s then true
  else false

/-- Go `removePunctuationAndNumbers`. -/
def removePunctuationAndNumbers (U : RuneTables) (s : String) : String :=
  ⟨s.data.filter (fun ss => !(U.isPunct ss || U.isNumber ss))⟩

/-- Go `strings.ToLower`: every rune mapped by `unicode.ToLower`. -/
def stringsToLower (U : RuneTables) (s : String) : String :=
  ⟨s.data.map U.toLower⟩

/-- Go `tidyWord`. -/
def tidyWord (U : RuneTables) (s : String) : String :=
  stringsToLower U (removePunctuationAndNumbers U s)

/-- The Text Normaliser as the specification words it (section 4.2): split on
spaces, split each piece on hyphens, tidy each piece, drop the pieces that
`ignoreWord` rejects; order and duplicates are kept. -/
def normalize (U : RuneTables) (text : String) : List String :=
  (split text ' ').flatMap (fun s =>
    ((split s '-').map (tidyWord U)).filter (fun ss => !ignoreWord ss))

/-! ## Frequency aggregator (`cloud`) -/

/-- A Go `map[string]int`. -/
abbrev WordCounts := List (String × Nat)

/-- Map read `m[k]`: the stored value, or the zero value when `k` is absent. -/
def WordCounts.get (m : WordCounts) (k : String) : Nat :=
  match m.lookup k with
  | some v => v
  | none => 0

/-- Map write `m[k] = v`. -/
def WordCounts.put (m : WordCounts) (k : String) (v : Nat) : WordCounts :=
  (k, v) :: m.filter (fun e => e.1 != k)

/-- The keys of the map. -/
def WordCounts.keys (m : WordCounts) : List String := m.map Prod.fst

/-- Body of the innermost loop of `cloud`:
`ss := tidyWord(ss); if !ignoreWord(ss) { wordCounts[ss] = wordCounts[ss] + 1 }`. -/
def countPiece (U : RuneTables) (wordCounts : WordCounts) (ss : String) : WordCounts :=
  let ss := tidyWord U ss
  if !ignoreWord ss then wordCounts.put ss (wordCounts.get ss + 1) else wordCounts

/-- The two nested loops of `cloud` over one text field:
`for _, s := range strings.Split(text, " ") { for _, ss := range strings.Split(s, "-") { ... } }`. -/
def countText (U : RuneTables) (wordCounts : WordCounts) (text : String) : WordCounts :=
  (split text ' ').foldl (fun m s => (split s '-').foldl (countPiece U) m) wordCounts

/-- The state of the post loop of `cloud`. -/
structure CloudState where
  wordCounts : WordCounts
  postCount : Nat
deriving DecidableEq, Repr

/-- Body of the post loop of `cloud`. -/
def cloudStep (U : RuneTables) (shouldIncludePost : String → Bool)
    (st : CloudState) (p : post) : CloudState :=
  if !shouldIncludePost p.Title then st
  else
    { wordCounts := countText U (countText U st.wordCounts p.Title) p.Desc
      postCount := st.postCount + 1 }

/-- The post loop of `cloud` for a given inclusion predicate. -/
def cloudLoop (U : RuneTables) (shouldIncludePost : String → Bool)
    (posts : List post) : CloudState :=
  posts.foldl (cloudStep U shouldIncludePost) ⟨[], 0⟩

/-- The inclusion predicate that `cloud` builds: always true for the empty
query; for a non-empty query, membership of the title in `postIDs`, the set of
the identifiers of the hits that the search returned. -/
def shouldIncludePost (q : String) (hits : List String) : String → Bool :=
  if q != "" then fun title => hits.contains title else fun _ => true

/-- Go `cloud(q)` up to the rendering: `posts` is what `load` returned and
`hits` the identifiers of `searchResults.Hits` (consulted for a non-empty
query only). -/
def cloud (U : RuneTables) (posts : List post) (q : String) (hits : List String) :
    CloudState :=
  cloudLoop U (shouldIncludePost q hits) posts

/-! ## `time.Parse` for the layout `"Jan 2, 2006"` -/

/-- The table `shortMonthNames` of Go package `time`. -/
def shortMonthNames : List String :=
  ["Jan", "Feb", "Mar", "Apr", "May", "Jun", "Jul", "Aug", "Sep", "Oct", "Nov", "Dec"]

/-- One step of `match` of package `time`: the bytes are equal, or equal after
setting bit `0x20` and then a lower-case ASCII letter. -/
def matchByte (c1 c2 : Char) : Bool :=
  c1 = c2 ||
    (c1.toNat < 128 && (c1.toNat ||| 32) = (c2.toNat ||| 32) &&
      97 ≤ (c1.toNat ||| 32) && (c1.toNat ||| 32) ≤ 122)

/-- Package `time`, `match(s1, s2)`: ASCII case-insensitive equality of two
sequences of the same length. -/
def matchFold : List Char → List Char → Bool
  | c1 :: s1, c2 :: s2 => matchByte c1 c2 && matchFold s1 s2
  | _, _ => true

/-- Package `time`, `lookup(tab, val)`: the index of the first table entry that
`val` starts with (ignoring ASCII case) and the rest of `val`. -/
def lookup : List String → List Char → Option (Nat × List Char)
  | [], _ => none
  | v :: tab, val =>
    if v.data.length ≤ val.length && matchFold (val.take v.data.length) v.data then
      some (0, val.drop v.data.length)
    else (lookup tab val).map (fun r => (r.1 + 1, r.2))

/-- Package `time`, `cutspace`: the leading spaces removed. -/
def cutspace (s : List Char) : List Char := s.dropWhile (fun c => c = ' ')

/-- Package `time`, `skip(value, prefix)`: `value` without the layout text
`prefix`, a run of spaces in `prefix` standing for any number of spaces in
`value` (none only where `value` ends).  `inRun` says that the layout
character before was a space, whose run has been matched already. -/
def skipFrom (inRun : Bool) : List Char → List Char → Option (List Char)
  | value, [] => some value
  | value, p :: rest =>
    if p = ' ' then
      if inRun then skipFrom true value rest
      else match value with
        | [] => skipFrom true [] rest
        | c :: cs => if c ≠ ' ' then none else skipFrom true (cutspace (c :: cs)) rest
    else match value with
      | [] => none
      | c :: cs => if c ≠ p then none else skipFrom false cs rest

/-- Package `time`, `skip`. -/
def skip (value layoutText : List Char) : Option (List Char) :=
  skipFrom false value layoutText

/-- The value of an ASCII digit. -/
def digitVal (c : Char) : Nat := c.toNat - 48

/-- Package `time`, `getnum(s, false)`: a number of one or two digits. -/
def getnum : List Char → Option (Nat × List Char)
  | [] => none
  | c0 :: rest =>
    if !c0.isDigit then none
    else match rest with
      | [] => some (digitVal c0, [])
      | c1 :: rest1 =>
        if !c1.isDigit then some (digitVal c0, c1 :: rest1)
        else some (digitVal c0 * 10 + digitVal c1, rest1)

/-- Package `time`, `atoi` on text whose first byte is a digit (the caller has
checked it, so the sign branch is not taken): the decimal value when every
character is a digit. -/
def atoi (s : List Char) : Option Nat :=
  if s.all Char.isDigit then some (s.foldl (fun x c => x * 10 + digitVal c) 0) else none

/-- The `stdLongYear` case of `time.Parse`: at least four bytes, the first a
digit, the first four read by `atoi`. -/
def longYear (value : List Char) : Option (Nat × List Char) :=
  match value with
  | c0 :: c1 :: c2 :: c3 :: rest =>
    if !c0.isDigit then none
    else (atoi [c0, c1, c2, c3]).map (fun y => (y, rest))
  | _ => none

/-- Package `time`, `isLeap`. -/
def isLeap (year : Nat) : Bool := year % 4 = 0 && (year % 100 ≠ 0 || year % 400 = 0)

/-- Package `time`, `daysIn(m, year)`. -/
def daysIn (m year : Nat) : Nat :=
  if m = 2 && isLeap year then 29
  else [31, 28, 31, 30, 31, 30, 31, 31, 30, 31, 30, 31].getD (m - 1) 0

/-- Go `time.Parse("Jan 2, 2006", value)`: `some t` for the time returned with
a nil error, `none` for an error (the time returned is then `time.Time{}`).
The layout splits into the month name, the text `" "`, the day, the text
`", "` and the four-digit year; text left over is an error, and so is a day
that the month does not have. -/
def timeParse (value : String) : Option Time :=
  match lookup shortMonthNames value.data with
  | none => none
  | some (m, v1) =>
    match skip v1 [' '] with
    | none => none
    | some v2 =>
      match getnum v2 with
      | none => none
      | some (day, v3) =>
        match skip v3 [',', ' '] with
        | none => none
        | some v4 =>
          match longYear v4 with
          | none => none
          | some (year, v5) =>
            if v5 ≠ [] then none
            else if day < 1 ∨ day > daysIn (m + 1) year then none
            else some ⟨year, m + 1, day⟩

/-! ## Record parser (the scanning loop of `index`) -/

/-- The variables of the scanning loop. -/
structure ParseState where
  posts : List post
  lineIndex : Nat
deriving DecidableEq, Repr

/-- The assignment `posts[i].field = ...`: `none` when `i` is out of range. -/
def updatePost (posts : List post) (i : Nat) (f : post → post) : Option (List post) :=
  match posts[i]? with
  | some p => some (posts.set i (f p))
  | none => none

/-- Body of the scanning loop of `index` for one line.  A date that does not
parse leaves `time.Time{}` in the `Date` field (the error is printed). -/
def scanStep (st : ParseState) (line : String) : Option ParseState :=
  let postIndex := st.lineIndex / 3
  let posts :=
    match st.lineIndex % 3 with
    | 0 => updatePost st.posts postIndex (fun p => { p with Title := line })
    | 1 =>
      updatePost st.posts postIndex (fun p =>
        { p with Date := match timeParse (trimLabel line "Posted On: ") with
                         | some t => t
                         | none => Time.zero })
    | _ =>
      match updatePost st.posts postIndex (fun p => { p with Desc := line }) with
      | some ps => some (ps ++ [post.zero])
      | none => none
  match posts with
  | some ps => some { posts := ps, lineIndex := st.lineIndex + 1 }
  | none => none

/-- The scanning loop of `index` over the lines that the scanner yields. -/
def scanLoop : ParseState → List String → Option ParseState
  | st, [] => some st
  | st, line :: rest =>
    match scanStep st line with
    | some st1 => scanLoop st1 rest
    | none => none

/-- The Record Parser: `posts := make([]post, 1)`, `lineIndex = 0`, then the
scanning loop; the result is the slice `posts` after the loop. -/
def recordParser (lines : List String) : Option (List post) :=
  match scanLoop { posts := [post.zero], lineIndex := 0 } lines with
  | some st => some st.posts
  | none => none

/-! ## `json.Marshal` of a post -/

/-- The sixteen hexadecimal digits used by `encoding/json`. -/
def hexDigit (n : Nat) : Char := "0123456789abcdef".data.getD n '0'

/-- The JSON text for one character of a string, as `encoding/json` writes it
with HTML escaping on (the default of `json.Marshal`). -/
def escapeChar (c : Char) : List Char :=
  if c = '"' ∨ c = '\\' then ['\\', c]
  else if c = '\n' then ['\\', 'n']
  else if c = '\r' then ['\\', 'r']
  else if c = '\t' then ['\\', 't']
  else if c.toNat < 0x20 ∨ c = '<' ∨ c = '>' ∨ c = '&' then
    ['\\', 'u', '0', '0', hexDigit (c.toNat / 16), hexDigit (c.toNat % 16)]
  else if c.toNat = 0x2028 then "\\u2028".data
  else if c.toNat = 0x2029 then "\\u2029".data
  else [c]

/-- The JSON string literal for a Go string. -/
def encodeString (s : String) : String :=
  ⟨'"' :: (s.data.flatMap escapeChar) ++ ['"']⟩

/-- A natural number in decimal, padded with zeros to `width` digits. -/
def pad (width n : Nat) : String :=
  let d := Nat.toDigits 10 n
  ⟨List.replicate (width - d.length) '0' ++ d⟩

/-- Go `Time.MarshalJSON` for a midnight UTC time: the RFC 3339 text in
quotes; an error when the year is outside `[0, 9999]`. -/
def marshalTime (t : Time) : Option String :=
  if t.year > 9999 then none
  else some ("\"" ++ pad 4 t.year ++ "-" ++ pad 2 t.month ++ "-" ++ pad 2 t.day ++ "T00:00:00Z\"")

/-- Go `json.Marshal(p)` for a `post`. -/
def marshal (p : post) : Option String :=
  match marshalTime p.Date with
  | none => none
  | some d =>
    some ("\x7b\"title\":" ++ encodeString p.Title ++ ",\"date\":" ++ d ++
      ",\"desc\":" ++ encodeString p.Desc ++ "\x7d")

/-! ## The build step (`index`) -/

/-- The loop of `index` that writes the store: every post is marshalled and
written as one line.  The result is the list of record lines written and
whether the loop ran to its end (a marshalling error ends the program). -/
def writeStore : List post → List String × Bool
  | [] => ([], true)
  | p :: rest =>
    match marshal p with
    | none => ([], false)
    | some jj =>
      let r := writeStore rest
      (jj :: r.1, r.2)

/-- What the indexing loop of `index` did: the calls `index.Index(id, doc)` in
order, and the identifiers of the calls whose error was printed. -/
structure IndexTrace where
  submitted : List (String × post)
  reported : List String
deriving DecidableEq, Repr

/-- The indexing loop of `index`.  `indexFails id doc` says whether the call
`index.Index(id, doc)` returns an error. -/
def indexLoop (indexFails : String → post → Bool) : List post → IndexTrace
  | [] => ⟨[], []⟩
  | p :: rest =>
    let r := indexLoop indexFails rest
    if p.Title ≠ "" then
      { submitted := (p.Title, p) :: r.submitted
        reported := if indexFails p.Title p then p.Title :: r.reported else r.reported }
    else r

/-- What a run of `index` produced. -/
structure BuildOutput where
  posts : List post
  store : List String
  submitted : List (String × post)
  reported : List String
  completed : Bool
deriving DecidableEq, Repr

/-- Go `index()` on the lines of the raw corpus, the files and the search
index being usable: parse, write the store, submit to the search index.
`none` is a run-time panic of the scanning loop; `completed = false` is an
exit before the end. -/
def index (indexFails : String → post → Bool) (lines : List String) : Option BuildOutput :=
  match recordParser lines with
  | none => none
  | some posts =>
    let w := writeStore posts
    if w.2 then
      let t := indexLoop indexFails posts
      some { posts := posts, store := w.1, submitted := t.submitted,
             reported := t.reported, completed := true }
    else
      some { posts := posts, store := w.1, submitted := [], reported := [],
             completed := false }

/-! ## Persistence (`load`) -/

/-- Go `bufio.MaxScanTokenSize`, the buffer limit of a `bufio.Scanner`. -/
def maxScanTokenSize : Nat := 64 * 1024

/-- Go `dropCR` on a line held in reverse: one trailing carriage return is
removed. -/
def dropCR (reversed : List Char) : List Char :=
  match reversed with
  | '\r' :: t => t.reverse
  | l => l.reverse

/-- The tokens of a `bufio.Scanner` with the split function `ScanLines` and a
buffer limit of `limit` bytes, and whether scanning stopped with
`ErrTooLong`.  `cur` is the current line so far, in reverse, and `n` its
number of bytes: a line ends at a newline found among the first `limit` bytes,
or at the end of the input when fewer than `limit` bytes are left. -/
def scanTokens (limit : Nat) : List Char → List Char → Nat → List String × Bool
  | [], cur, n =>
    if cur.isEmpty then ([], false)
    else if limit ≤ n then ([], true)
    else ([⟨dropCR cur⟩], false)
  | c :: rest, cur, n =>
    if limit ≤ n then ([], true)
    else if c = '\n' then
      let r := scanTokens limit rest [] 0
      (⟨dropCR cur⟩ :: r.1, r.2)
    else scanTokens limit rest (c :: cur) (n + c.utf8Size)

/-- The lines that `for s.Scan() { ... s.Text() ... }` goes through for a new
`bufio.Scanner` over a file of the given content. -/
def scanLines (content : String) : List String × Bool :=
  scanTokens maxScanTokenSize content.data [] 0

/-- The content of a text file that holds the given lines, each followed by a
newline: the store after the write loop of `index`, for its record lines. -/
def fileOfLines (lines : List String) : String :=
  ⟨lines.flatMap (fun l => l.data ++ ['\n'])⟩

/-- Go `load()` on a store file that exists.  `unmarshal line` is the post
that `json.Unmarshal(line, &p)` leaves in a zero `p`.  The error of the
scanner is not looked at: the loop ends at the first `Scan` that fails. -/
def load (unmarshal : String → post) (file : String) : List post :=
  (scanLines file).1.map unmarshal

/-- Go `index()` on the content of the raw corpus file: the scanning loop runs
over the lines the scanner yields, and a scanner error ends the program
(`log.Fatal`) before anything is written. -/
def indexFile (indexFails : String → post → Bool) (content : String) : Option BuildOutput :=
  let s := scanLines content
  if s.2 then
    match recordParser s.1 with
    | none => none
    | some posts =>
      some { posts := posts, store := [], submitted := [], reported := [], completed := false }
  else index indexFails s.1

/-! ## Reference description of the parser's result -/

/-- The value that line 1 of a triplet leaves in `Date`: the date parsed from
the line without its label, or `time.Time{}` when that is an error. -/
def dateOf (line : String) : Time :=
  match timeParse (trimLabel line "Posted On: ") with
  | some t => t
  | none => Time.zero

/-- The post that the specification (section 4.1) assigns to position `k`:
title from line `3k`, date from line `3k+1`, description from line `3k+2`,
each field at its zero value when the line is absent. -/
def tripletPost (L : List String) (k : Nat) : post :=
  { Title := (L[3 * k]?).getD ""
    Date := match L[3 * k + 1]? with
            | some l => dateOf l
            | none => Time.zero
    Desc := (L[3 * k + 2]?).getD "" }

/-- The increment `wordCounts[ss] = wordCounts[ss] + 1` of `cloud`. -/
def bump (m : WordCounts) (t : String) : WordCounts := m.put t (m.get t + 1)

/-- Every count stored in the map is positive. -/
def WordCounts.Positive (m : WordCounts) : Prop :=
  ∀ t v, List.lookup t m = some v → 0 < v

/-! ## A corpus with long lines -/

/-- A title line of 40000 bytes. -/
def longTitle : String := ⟨List.replicate 40000 'a'⟩

/-- A description line of 40000 bytes. -/
def longDesc : String := ⟨List.replicate 40000 'b'⟩

/-- A corpus of one triplet whose lines are each shorter than the buffer limit
of the scanner, and whose title and description together are longer. -/
def longCorpus : List String := [longTitle, "Posted On: Jan 2, 2006", longDesc]

/-! ## The record parser in closed form -/

theorem scanLoop_append (st : ParseState) (xs ys : List String) :
    scanLoop st (xs ++ ys) =
      match scanLoop st xs with
      | some st1 => scanLoop st1 ys
      | none => none := by
  induction xs generalizing st with
  | nil => simp [scanLoop]
  | cons x xs ih =>
    simp only [List.cons_append, scanLoop]
    cases scanStep st x with
    | none => rfl
    | some st1 => exact ih st1

theorem map_range_set {α : Type} (f g : Nat → α) (k : Nat) (v : α)
    (hk : g k = v) (hlt : ∀ j, j < k → g j = f j) :
    ((List.range (k + 1)).map f).set k v = (List.range (k + 1)).map g := by
  apply List.ext_getElem?
  intro i
  rw [List.getElem?_set]
  by_cases hik : k = i
  · subst hik
    simp [hk]
  · simp only [hik, if_false]
    by_cases hi : i < k + 1
    · have : i < k := by omega
      simp [List.getElem?_map, List.getElem?_range hi, hlt i this]
    · simp [List.getElem?_eq_none, Nat.le_of_not_lt hi]

theorem tripletPost_append_of_lt (L : List String) (x : String) (j : Nat)
    (h : 3 * j + 2 < L.length) : tripletPost (L ++ [x]) j = tripletPost L j := by
  have h0 : 3 * j < L.length := by omega
  have h1 : 3 * j + 1 < L.length := by omega
  unfold tripletPost
  rw [List.getElem?_append_left h0, List.getElem?_append_left h1,
    List.getElem?_append_left h]

theorem tripletPost_of_le (L : List String) (j : Nat) (h : L.length ≤ 3 * j) :
    tripletPost L j = post.zero := by
  have h1 : L.length ≤ 3 * j + 1 := by omega
  have h2 : L.length ≤ 3 * j + 2 := by omega
  unfold tripletPost
  rw [List.getElem?_eq_none h, List.getElem?_eq_none h1, List.getElem?_eq_none h2]
  rfl

/-- The scanning loop in closed form: after the lines `L` the slice holds one
post per started triplet plus, when the last triplet is complete, the fresh
empty post; no index is out of range. -/
theorem scanLoop_closed (L : List String) :
    scanLoop { posts := [post.zero], lineIndex := 0 } L =
      some { posts := (List.range (L.length / 3 + 1)).map (tripletPost L),
             lineIndex := L.length } := by
  induction L using List.reverseRecOn with
  | nil =>
    simp [scanLoop, List.range_succ, tripletPost_of_le]
  | append_singleton L x ih =>
    rw [scanLoop_append, ih]
    simp only [scanLoop, scanStep]
    have hlen : (L ++ [x]).length = L.length + 1 := by simp
    rw [hlen]
    have hget : ((List.range (L.length / 3 + 1)).map (tripletPost L))[L.length / 3]? =
        some (tripletPost L (L.length / 3)) := by
      simp [List.getElem?_map, List.getElem?_range (Nat.lt_succ_self _)]
    have hold : ∀ j, j < L.length / 3 → tripletPost (L ++ [x]) j = tripletPost L j := by
      intro j hj
      apply tripletPost_append_of_lt
      omega
    have hmod : L.length % 3 = 0 ∨ L.length % 3 = 1 ∨ L.length % 3 = 2 := by omega
    rcases hmod with h0 | h1 | h2
    · have hdiv : (L.length + 1) / 3 = L.length / 3 := by omega
      simp only [h0, updatePost, hget, hdiv]
      congr 2
      apply map_range_set _ _ _ _ _ hold
      have e0 : 3 * (L.length / 3) = L.length := by omega
      have e1 : L.length < 3 * (L.length / 3) + 1 := by omega
      have e2 : L.length < 3 * (L.length / 3) + 2 := by omega
      simp [tripletPost, e0, List.getElem?_append_right, List.getElem?_eq_none, e1, e2]
    · have hdiv : (L.length + 1) / 3 = L.length / 3 := by omega
      simp only [h1, updatePost, hget, hdiv]
      congr 2
      apply map_range_set _ _ _ _ _ hold
      have e0 : 3 * (L.length / 3) < L.length := by omega
      have e1 : 3 * (L.length / 3) + 1 = L.length := by omega
      have e2 : L.length < 3 * (L.length / 3) + 2 := by omega
      have e3 : L.length + 1 ≤ 3 * (L.length / 3) + 2 := by omega
      unfold tripletPost
      rw [List.getElem?_append_left e0, e1, List.getElem?_eq_none (Nat.le_refl _),
        List.getElem?_eq_none (Nat.le_of_lt e2)]
      have e4 : (L ++ [x])[3 * (L.length / 3) + 2]? = none := by
        apply List.getElem?_eq_none
        rw [hlen]
        exact e3
      simp [e4, dateOf]
    · have hdiv : (L.length + 1) / 3 = L.length / 3 + 1 := by omega
      simp only [h2, updatePost, hget, hdiv]
      congr 2
      rw [List.range_succ (n := L.length / 3 + 1), List.map_append]
      congr 1
      · apply map_range_set _ _ _ _ _ hold
        have e0 : 3 * (L.length / 3) < L.length := by omega
        have e1 : 3 * (L.length / 3) + 1 < L.length := by omega
        have e2 : 3 * (L.length / 3) + 2 = L.length := by omega
        unfold tripletPost
        rw [List.getElem?_append_left e0, List.getElem?_append_left e1, e2,
          List.getElem?_eq_none (Nat.le_refl _)]
        simp
      · have e : (L ++ [x]).length ≤ 3 * (L.length / 3 + 1) := by
          rw [hlen]
          omega
        simp [tripletPost_of_le _ _ e]

theorem recordParser_closed (L : List String) :
    recordParser L = some ((List.range (L.length / 3 + 1)).map (tripletPost L)) := by
  simp [recordParser, scanLoop_closed]

theorem recordParser_getElem? (L : List String) (posts : List post) (k : Nat)
    (h : recordParser L = some posts) (hk : k ≤ L.length / 3) :
    posts[k]? = some (tripletPost L k) := by
  rw [recordParser_closed] at h
  injection h with h
  subst h
  simp [List.getElem?_map, List.getElem?_range (Nat.lt_succ_of_le hk)]

/-! ## Claims about the record parser -/

theorem tripletPost_set_of_ne (L : List String) (j k : Nat) (l : String) (h : k ≠ j) :
    tripletPost (L.set (3 * j + 1) l) k = tripletPost L k := by
  unfold tripletPost
  rw [List.getElem?_set_ne (by omega), List.getElem?_set_ne (by omega),
    List.getElem?_set_ne (by omega)]

theorem tripletPost_set_fields (L : List String) (j : Nat) (l : String) :
    (tripletPost (L.set (3 * j + 1) l) j).Title = (tripletPost L j).Title ∧
      (tripletPost (L.set (3 * j + 1) l) j).Desc = (tripletPost L j).Desc := by
  unfold tripletPost
  simp only
  rw [List.getElem?_set_ne (by omega), List.getElem?_set_ne (by omega)]
  exact ⟨rfl, rfl⟩

/-- C3: for every list of lines the parser ends without an out-of-range index
and yields `len/3 + 1` posts; the post of every started triplet `k` has the
title of line `3k`, the description of line `3k+2` (empty when absent) and the
date parsed from line `3k+1` without its label (the zero date when the parse
fails or the line is absent); line `i` lands in post `i/3` and in the field
`i mod 3` selects; replacing a date line by any other text changes neither the
number of posts, nor any other post, nor the title or description of its own
post. -/
theorem C3_parser_is_positional (L : List String) :
    ∃ posts, recordParser L = some posts ∧
      posts.length = L.length / 3 + 1 ∧
      (∀ k, 3 * k < L.length → ∃ p, posts[k]? = some p ∧
        L[3 * k]? = some p.Title ∧
        p.Desc = (match L[3 * k + 2]? with
                  | some l => l
                  | none => "") ∧
        p.Date = (match L[3 * k + 1]? with
                  | some l =>
                    (match timeParse (trimLabel l "Posted On: ") with
                     | some t => t
                     | none => Time.zero)
                  | none => Time.zero)) ∧
      (∀ i line, L[i]? = some line → ∃ p, posts[i / 3]? = some p ∧
        (i % 3 = 0 → p.Title = line) ∧
        (i % 3 = 1 → p.Date = dateOf line) ∧
        (i % 3 = 2 → p.Desc = line)) ∧
      (∀ j l, ∃ posts1, recordParser (L.set (3 * j + 1) l) = some posts1 ∧
        posts1.length = posts.length ∧
        (∀ k, k ≠ j → posts1[k]? = posts[k]?) ∧
        (∀ p p1, posts[j]? = some p → posts1[j]? = some p1 →
          p1.Title = p.Title ∧ p1.Desc = p.Desc)) := by
  refine ⟨_, recordParser_closed L, by simp, ?_, ?_, ?_⟩
  · intro k hk
    have hk3 : k ≤ L.length / 3 := by omega
    refine ⟨tripletPost L k, recordParser_getElem? L _ k (recordParser_closed L) hk3, ?_, ?_, ?_⟩
    · simp [tripletPost, List.getElem?_eq_getElem hk]
    · unfold tripletPost
      cases L[3 * k + 2]? <;> rfl
    · unfold tripletPost
      cases L[3 * k + 1]? <;> rfl
  · intro i line hi
    have hlt : i < L.length := by
      by_contra hge
      rw [List.getElem?_eq_none (Nat.le_of_not_lt hge)] at hi
      cases hi
    have hk3 : i / 3 ≤ L.length / 3 := Nat.div_le_div_right (Nat.le_of_lt hlt)
    refine ⟨tripletPost L (i / 3),
      recordParser_getElem? L _ _ (recordParser_closed L) hk3, ?_, ?_, ?_⟩
    · intro h0
      have e : 3 * (i / 3) = i := by omega
      simp [tripletPost, e, hi]
    · intro h1
      have e : 3 * (i / 3) + 1 = i := by omega
      simp [tripletPost, e, hi]
    · intro h2
      have e : 3 * (i / 3) + 2 = i := by omega
      simp [tripletPost, e, hi]
  · intro j l
    refine ⟨_, recordParser_closed _, by simp, ?_, ?_⟩
    · intro k hkj
      by_cases hk : k < L.length / 3 + 1
      · simp [List.getElem?_map, List.getElem?_range hk, tripletPost_set_of_ne L j k l hkj]
      · simp [List.getElem?_eq_none, Nat.le_of_not_lt hk]
    · intro p p1 hp hp1
      by_cases hk : j < L.length / 3 + 1
      · simp [List.getElem?_map, List.getElem?_range hk] at hp hp1
        subst hp
        subst hp1
        exact tripletPost_set_fields L j l
      · simp [List.getElem?_eq_none, Nat.le_of_not_lt hk] at hp

/-- C1, as stated, fails: the corpus of the three non-empty lines
"New feature X" / "Posted On: Jan 2, 2006" / "Launches today" (so `n = 1`)
is parsed into two posts, the described post followed by the empty post that
the loop appends after every third line; the result is not a list of one
post. -/
theorem C1_counterexample :
    ["New feature X", "Posted On: Jan 2, 2006", "Launches today"].length = 3 * 1 ∧
      (∀ l ∈ ["New feature X", "Posted On: Jan 2, 2006", "Launches today"], l ≠ "") ∧
      recordParser ["New feature X", "Posted On: Jan 2, 2006", "Launches today"] =
        some [⟨"New feature X", ⟨2006, 1, 2⟩, "Launches today"⟩, ⟨"", ⟨1, 1, 1⟩, ""⟩] ∧
      ¬ ∃ posts, recordParser ["New feature X", "Posted On: Jan 2, 2006", "Launches today"] =
          some posts ∧ posts.length = 1 := by
  refine ⟨by decide, by decide, by decide, ?_⟩
  rintro ⟨posts, h, hlen⟩
  have h2 : recordParser ["New feature X", "Posted On: Jan 2, 2006", "Launches today"] =
      some [⟨"New feature X", ⟨2006, 1, 2⟩, "Launches today"⟩, ⟨"", ⟨1, 1, 1⟩, ""⟩] := by
    decide
  rw [h2] at h
  injection h with h
  subst h
  simp at hlen

/-- C1, amended: for every `n` and every corpus of exactly `3n` lines the
parser yields exactly `n + 1` posts; for each `k < n` the `k`-th post has its
title equal to line `3k`, its date parsed from line `3k+1` without the label
"Posted On: " (the zero date when that fails) and its description equal to
line `3k+2`; the last post is the empty post. -/
theorem C1_parser_on_whole_triplets (n : Nat) (L : List String) (hL : L.length = 3 * n) :
    ∃ posts, recordParser L = some posts ∧
      posts.length = n + 1 ∧
      (∀ k, k < n → ∃ p, posts[k]? = some p ∧
        L[3 * k]? = some p.Title ∧
        (L[3 * k + 1]?).map
          (fun l => match timeParse (trimLabel l "Posted On: ") with
                    | some t => t
                    | none => Time.zero) = some p.Date ∧
        L[3 * k + 2]? = some p.Desc) ∧
      posts[n]? = some post.zero := by
  have hdiv : L.length / 3 = n := by omega
  refine ⟨_, recordParser_closed L, by simp [hdiv], ?_, ?_⟩
  · intro k hk
    have hk3 : k ≤ L.length / 3 := by omega
    have h0 : 3 * k < L.length := by omega
    have h1 : 3 * k + 1 < L.length := by omega
    have h2 : 3 * k + 2 < L.length := by omega
    refine ⟨tripletPost L k, recordParser_getElem? L _ k (recordParser_closed L) hk3, ?_, ?_, ?_⟩
    · simp [tripletPost, List.getElem?_eq_getElem h0]
    · simp [tripletPost, List.getElem?_eq_getElem h1, dateOf]
    · simp [tripletPost, List.getElem?_eq_getElem h2]
  · rw [recordParser_getElem? L _ n (recordParser_closed L) (by omega)]
    rw [tripletPost_of_le L n (by omega)]

/-- C1, amended, at the corpus of the specification's example: two posts, the
described one and the empty one. -/
theorem C1_parser_on_whole_triplets_witness :
    ["New feature X", "Posted On: Jan 2, 2006", "Launches today"].length = 3 * 1 ∧
      ∃ posts, recordParser ["New feature X", "Posted On: Jan 2, 2006", "Launches today"] =
          some posts ∧
        posts.length = 1 + 1 ∧
        (∀ k, k < 1 → ∃ p, posts[k]? = some p ∧
          ["New feature X", "Posted On: Jan 2, 2006", "Launches today"][3 * k]? = some p.Title ∧
          (["New feature X", "Posted On: Jan 2, 2006", "Launches today"][3 * k + 1]?).map
            (fun l => match timeParse (trimLabel l "Posted On: ") with
                      | some t => t
                      | none => Time.zero) = some p.Date ∧
          ["New feature X", "Posted On: Jan 2, 2006", "Launches today"][3 * k + 2]? =
            some p.Desc) ∧
        posts[1]? = some post.zero :=
  ⟨by decide,
    C1_parser_on_whole_triplets 1
      ["New feature X", "Posted On: Jan 2, 2006", "Launches today"] (by decide)⟩

/-! ## The build step -/

theorem digitVal_le (c : Char) (h : c.isDigit = true) : digitVal c ≤ 9 := by
  simp only [Char.isDigit, Bool.and_eq_true, decide_eq_true_eq] at h
  have h2 : c.val.toNat ≤ 57 := h.2
  simp only [digitVal, Char.toNat]
  omega

theorem longYear_le (v : List Char) (y : Nat) (rest : List Char)
    (h : longYear v = some (y, rest)) : y ≤ 9999 := by
  unfold longYear at h
  split at h
  · rename_i c0 c1 c2 c3 r
    split at h
    · cases h
    · simp only [atoi, Option.map_eq_some'] at h
      obtain ⟨a, ha, hab⟩ := h
      split at ha
      · rename_i hall
        simp only [List.all_cons, List.all_nil, Bool.and_true, Bool.and_eq_true] at hall
        obtain ⟨d0, d1, d2, d3⟩ := hall
        have b0 := digitVal_le _ d0
        have b1 := digitVal_le _ d1
        have b2 := digitVal_le _ d2
        have b3 := digitVal_le _ d3
        injection ha with ha
        injection hab with hy hr
        subst hy
        subst ha
        simp only [List.foldl]
        omega
      · cases ha
  · cases h

theorem timeParse_year_le (s : String) (t : Time) (h : timeParse s = some t) :
    t.year ≤ 9999 := by
  unfold timeParse at h
  split at h
  · cases h
  · split at h
    · cases h
    · split at h
      · cases h
      · split at h
        · cases h
        · split at h
          · cases h
          · rename_i hy
            split at h
            · cases h
            · split at h
              · cases h
              · injection h with h
                subst h
                exact longYear_le _ _ _ hy

theorem dateOf_year_le (l : String) : (dateOf l).year ≤ 9999 := by
  unfold dateOf
  split
  · rename_i t ht
    exact timeParse_year_le _ _ ht
  · decide

theorem tripletPost_year_le (L : List String) (k : Nat) :
    (tripletPost L k).Date.year ≤ 9999 := by
  unfold tripletPost
  simp only
  split
  · exact dateOf_year_le _
  · decide

theorem recordParser_year_le (L : List String) (posts : List post)
    (h : recordParser L = some posts) : ∀ p ∈ posts, p.Date.year ≤ 9999 := by
  rw [recordParser_closed] at h
  injection h with h
  subst h
  intro p hp
  simp only [List.mem_map] at hp
  obtain ⟨k, _, rfl⟩ := hp
  exact tripletPost_year_le L k

theorem marshal_isSome (p : post) (h : p.Date.year ≤ 9999) : ∃ jj, marshal p = some jj := by
  unfold marshal marshalTime
  have : ¬ p.Date.year > 9999 := by omega
  simp [this]

/-- When every date is in range the write loop runs to its end and writes one
record per post, in order. -/
theorem writeStore_complete (posts : List post) (h : ∀ p ∈ posts, p.Date.year ≤ 9999) :
    (writeStore posts).2 = true ∧
      (writeStore posts).1.map some = posts.map marshal := by
  induction posts with
  | nil => simp [writeStore]
  | cons p rest ih =>
    obtain ⟨jj, hjj⟩ := marshal_isSome p (h p (List.mem_cons_self _ _))
    have ih2 := ih (fun q hq => h q (List.mem_cons_of_mem _ hq))
    simp [writeStore, hjj, ih2.1, ih2.2]

theorem indexLoop_submitted (indexFails : String → post → Bool) (posts : List post) :
    (indexLoop indexFails posts).submitted =
      (posts.filter (fun p => decide (p.Title ≠ ""))).map (fun p => (p.Title, p)) := by
  induction posts with
  | nil => rfl
  | cons p rest ih =>
    by_cases hp : p.Title = ""
    · simp [indexLoop, hp, ih]
    · simp [indexLoop, hp, ih]

theorem indexLoop_reported (indexFails : String → post → Bool) (posts : List post) :
    (indexLoop indexFails posts).reported =
      ((posts.filter (fun p => decide (p.Title ≠ ""))).filter
        (fun p => indexFails p.Title p)).map (fun p => p.Title) := by
  induction posts with
  | nil => rfl
  | cons p rest ih =>
    by_cases hp : p.Title = ""
    · simp [indexLoop, hp, ih]
    · by_cases hf : indexFails p.Title p = true
      · simp [indexLoop, hp, ih, hf, List.filter_cons]
      · simp [indexLoop, hp, ih, hf, List.filter_cons]

/-- A run of `index` in closed form: it always runs to its end, the store gets
the record of every parsed post, and the search index the posts with a
non-empty title. -/
theorem index_closed (indexFails : String → post → Bool) (L : List String) :
    ∃ out, index indexFails L = some out ∧
      recordParser L = some out.posts ∧
      out.completed = true ∧
      out.store.map some = out.posts.map marshal ∧
      out.submitted =
        (out.posts.filter (fun p => decide (p.Title ≠ ""))).map (fun p => (p.Title, p)) ∧
      out.reported =
        ((out.posts.filter (fun p => decide (p.Title ≠ ""))).filter
          (fun p => indexFails p.Title p)).map (fun p => p.Title) := by
  have hw := writeStore_complete _ (recordParser_year_le L _ (recordParser_closed L))
  refine ⟨{ posts := (List.range (L.length / 3 + 1)).map (tripletPost L)
            store := (writeStore ((List.range (L.length / 3 + 1)).map (tripletPost L))).1
            submitted := (indexLoop indexFails
              ((List.range (L.length / 3 + 1)).map (tripletPost L))).submitted
            reported := (indexLoop indexFails
              ((List.range (L.length / 3 + 1)).map (tripletPost L))).reported
            completed := true }, ?_, recordParser_closed L, rfl, hw.2,
          indexLoop_submitted _ _, indexLoop_reported _ _⟩
  simp only [index, recordParser_closed, hw.1, if_true]

/-- C8: for every corpus and whatever submissions fail, `index` runs through,
and the calls it makes on the search index are exactly the parsed posts with a
non-empty title, once each, in parsed order, each under its title as
identifier; no call has an empty identifier; the failures reported are those
of the failing calls; and the calls made do not depend on which calls fail. -/
theorem C8_submitted_documents (indexFails : String → post → Bool) (L : List String) :
    ∃ out, index indexFails L = some out ∧
      recordParser L = some out.posts ∧
      out.completed = true ∧
      out.submitted =
        (out.posts.filter (fun p => decide (p.Title ≠ ""))).map (fun p => (p.Title, p)) ∧
      (∀ e ∈ out.submitted, e.1 ≠ "" ∧ e.1 = e.2.Title) ∧
      out.reported =
        ((out.posts.filter (fun p => decide (p.Title ≠ ""))).filter
          (fun p => indexFails p.Title p)).map (fun p => p.Title) ∧
      (∀ otherFails : String → post → Bool, ∃ out1, index otherFails L = some out1 ∧
        out1.submitted = out.submitted) := by
  obtain ⟨out, h1, h2, h3, _, h5, h6⟩ := index_closed indexFails L
  refine ⟨out, h1, h2, h3, h5, ?_, h6, ?_⟩
  · intro e he
    rw [h5] at he
    simp only [List.mem_map, List.mem_filter, decide_eq_true_eq] at he
    obtain ⟨p, ⟨_, hp⟩, rfl⟩ := he
    exact ⟨hp, rfl⟩
  · intro otherFails
    obtain ⟨out1, g1, g2, _, _, g5, _⟩ := index_closed otherFails L
    refine ⟨out1, g1, ?_⟩
    rw [h2] at g2
    injection g2 with g2
    rw [g5, h5, g2]

/-- C2, as stated, fails: the corpus of four lines (not a multiple of three)
ends in a partial post whose title is its fourth line, not the empty string;
that post is written to the store and submitted to the search index. -/
theorem C2_counterexample :
    ["New feature X", "Posted On: Jan 2, 2006", "Launches today", "Another feature"].length % 3
        ≠ 0 ∧
      ∃ out, index (fun _ _ => false)
          ["New feature X", "Posted On: Jan 2, 2006", "Launches today", "Another feature"] =
            some out ∧
        out.posts.getLast? = some ⟨"Another feature", ⟨1, 1, 1⟩, ""⟩ ∧
        (⟨"Another feature", ⟨1, 1, 1⟩, ""⟩ : post).Title ≠ "" ∧
        marshal ⟨"Another feature", ⟨1, 1, 1⟩, ""⟩ =
          some "\x7b\"title\":\"Another feature\",\"date\":\"0001-01-01T00:00:00Z\",\"desc\":\"\"\x7d" ∧
        "\x7b\"title\":\"Another feature\",\"date\":\"0001-01-01T00:00:00Z\",\"desc\":\"\"\x7d"
          ∈ out.store ∧
        ("Another feature", (⟨"Another feature", ⟨1, 1, 1⟩, ""⟩ : post)) ∈ out.submitted := by
  refine ⟨by decide, ?_⟩
  refine ⟨{ posts := [⟨"New feature X", ⟨2006, 1, 2⟩, "Launches today"⟩,
                      ⟨"Another feature", ⟨1, 1, 1⟩, ""⟩]
            store := ["\x7b\"title\":\"New feature X\",\"date\":\"2006-01-02T00:00:00Z\",\"desc\":\"Launches today\"\x7d",
                      "\x7b\"title\":\"Another feature\",\"date\":\"0001-01-01T00:00:00Z\",\"desc\":\"\"\x7d"]
            submitted := [("New feature X", ⟨"New feature X", ⟨2006, 1, 2⟩, "Launches today"⟩),
                          ("Another feature", ⟨"Another feature", ⟨1, 1, 1⟩, ""⟩)]
            reported := []
            completed := true }, by decide, by decide, by decide, by decide, by decide, by decide⟩

/-- C2, amended: for every corpus whose line count is not a multiple of three,
`index` runs to its end and the final, partial post has as title the first
line of the incomplete triplet; it is among the documents submitted to the
search index exactly when that title is non-empty, and when the title is
non-empty its record is among those written to the store. -/
theorem C2_trailing_post (indexFails : String → post → Bool) (L : List String)
    (hL : L.length % 3 ≠ 0) :
    ∃ out p, index indexFails L = some out ∧
      out.completed = true ∧
      out.posts.getLast? = some p ∧
      L[3 * (L.length / 3)]? = some p.Title ∧
      ((p.Title, p) ∈ out.submitted ↔ p.Title ≠ "") ∧
      (p.Title ≠ "" → ∃ jj, marshal p = some jj ∧ jj ∈ out.store) := by
  obtain ⟨out, h1, h2, h3, h4, h5, _⟩ := index_closed indexFails L
  have hposts := h2
  rw [recordParser_closed] at hposts
  injection hposts with hposts
  have hlast : out.posts.getLast? = some (tripletPost L (L.length / 3)) := by
    have hlen : out.posts.length - 1 = L.length / 3 := by
      rw [← hposts]
      simp
    rw [List.getLast?_eq_getElem?, hlen]
    exact recordParser_getElem? L _ _ h2 (Nat.le_refl _)
  have hmem : tripletPost L (L.length / 3) ∈ out.posts :=
    List.mem_of_getLast?_eq_some hlast
  have hlt : 3 * (L.length / 3) < L.length := by omega
  refine ⟨out, tripletPost L (L.length / 3), h1, h3, hlast, ?_, ?_, ?_⟩
  · simp [tripletPost, List.getElem?_eq_getElem hlt]
  · rw [h5]
    simp only [List.mem_map, List.mem_filter, decide_eq_true_eq]
    constructor
    · rintro ⟨q, ⟨_, hq⟩, hqe⟩
      have : q = tripletPost L (L.length / 3) := congrArg Prod.snd hqe
      rw [← this]
      exact hq
    · intro hne
      exact ⟨_, ⟨hmem, hne⟩, rfl⟩
  · intro _
    obtain ⟨jj, hjj⟩ := marshal_isSome _ (tripletPost_year_le L (L.length / 3))
    refine ⟨jj, hjj, ?_⟩
    have : some jj ∈ out.store.map some := by
      rw [h4, ← hjj]
      exact List.mem_map_of_mem _ hmem
    simpa using this

/-- C2, amended, at a corpus of four lines. -/
theorem C2_trailing_post_witness :
    ["New feature X", "Posted On: Jan 2, 2006", "Launches today", "Another feature"].length % 3
        ≠ 0 ∧
      ∃ out p, index (fun _ _ => false)
          ["New feature X", "Posted On: Jan 2, 2006", "Launches today", "Another feature"] =
            some out ∧
        out.completed = true ∧
        out.posts.getLast? = some p ∧
        ["New feature X", "Posted On: Jan 2, 2006", "Launches today", "Another feature"][3 *
            (["New feature X", "Posted On: Jan 2, 2006", "Launches today",
              "Another feature"].length / 3)]? = some p.Title ∧
        ((p.Title, p) ∈ out.submitted ↔ p.Title ≠ "") ∧
        (p.Title ≠ "" → ∃ jj, marshal p = some jj ∧ jj ∈ out.store) :=
  ⟨by decide,
    C2_trailing_post (fun _ _ => false)
      ["New feature X", "Posted On: Jan 2, 2006", "Launches today", "Another feature"]
      (by decide)⟩

/-- C7 fails on the code: on the corpus of the three lines "New feature X" /
"Posted On: Jan 2, 2006" / "Launches today", `index` writes two record lines
to the store, and the second is the serialization of the empty post that the
parser appended, whose title is empty; the indexing loop of the same run
leaves that post out. -/
theorem C7_store_holds_empty_post :
    ∃ out, index (fun _ _ => false)
        ["New feature X", "Posted On: Jan 2, 2006", "Launches today"] = some out ∧
      out.posts = [⟨"New feature X", ⟨2006, 1, 2⟩, "Launches today"⟩, post.zero] ∧
      out.store =
        ["\x7b\"title\":\"New feature X\",\"date\":\"2006-01-02T00:00:00Z\",\"desc\":\"Launches today\"\x7d",
         "\x7b\"title\":\"\",\"date\":\"0001-01-01T00:00:00Z\",\"desc\":\"\"\x7d"] ∧
      marshal post.zero =
        some "\x7b\"title\":\"\",\"date\":\"0001-01-01T00:00:00Z\",\"desc\":\"\"\x7d" ∧
      post.zero.Title = "" ∧
      out.submitted =
        [("New feature X", ⟨"New feature X", ⟨2006, 1, 2⟩, "Launches today"⟩)] := by
  refine ⟨{ posts := [⟨"New feature X", ⟨2006, 1, 2⟩, "Launches today"⟩, post.zero]
            store := ["\x7b\"title\":\"New feature X\",\"date\":\"2006-01-02T00:00:00Z\",\"desc\":\"Launches today\"\x7d",
                      "\x7b\"title\":\"\",\"date\":\"0001-01-01T00:00:00Z\",\"desc\":\"\"\x7d"]
            submitted := [("New feature X", ⟨"New feature X", ⟨2006, 1, 2⟩, "Launches today"⟩)]
            reported := []
            completed := true }, by decide, rfl, rfl, by decide, rfl, rfl⟩

/-! ## The word counts -/

theorem lookup_filter_ne (m : WordCounts) (k t : String) :
    List.lookup t (m.filter (fun e => e.1 != k)) = if t = k then none else List.lookup t m := by
  induction m with
  | nil => simp
  | cons e m ih =>
    obtain ⟨a, b⟩ := e
    by_cases hak : a = k
    · subst hak
      by_cases hta : t = a
      · subst hta
        simp [List.filter_cons, ih]
      · have : (t == a) = false := by simpa using hta
        simp [List.filter_cons, ih, hta, List.lookup_cons, this]
    · by_cases hta : t = a
      · subst hta
        simp [List.filter_cons, hak, List.lookup_cons]
      · have h1 : (t == a) = false := by simpa using hta
        simp [List.filter_cons, hak, List.lookup_cons, h1, ih]

theorem lookup_put (m : WordCounts) (k t : String) (v : Nat) :
    List.lookup t (m.put k v) = if t = k then some v else List.lookup t m := by
  unfold WordCounts.put
  by_cases htk : t = k
  · subst htk
    simp [List.lookup_cons]
  · have h1 : (t == k) = false := by simpa using htk
    simp [List.lookup_cons, h1, lookup_filter_ne, htk]

theorem get_bump (m : WordCounts) (k t : String) :
    (bump m k).get t = m.get t + (if t = k then 1 else 0) := by
  unfold bump WordCounts.get
  rw [lookup_put]
  by_cases htk : t = k
  · subst htk
    simp
  · simp [htk]

theorem positive_bump (m : WordCounts) (k : String) (h : m.Positive) :
    (bump m k).Positive := by
  intro t v hv
  unfold bump at hv
  rw [lookup_put] at hv
  by_cases htk : t = k
  · simp only [htk, if_true] at hv
    injection hv with hv
    omega
  · simp only [htk, if_false] at hv
    exact h t v hv

theorem keys_nodup_filter (m : WordCounts) (k : String) (h : m.keys.Nodup) :
    (WordCounts.keys (m.filter (fun e => e.1 != k))).Nodup := by
  unfold WordCounts.keys at *
  exact List.Nodup.sublist (List.Sublist.map _ (List.filter_sublist m)) h

theorem keys_nodup_bump (m : WordCounts) (k : String) (h : m.keys.Nodup) :
    (bump m k).keys.Nodup := by
  have h2 := keys_nodup_filter m k h
  unfold bump WordCounts.put
  unfold WordCounts.keys at *
  simp only [List.map_cons, List.nodup_cons]
  refine ⟨?_, h2⟩
  simp only [List.mem_map, List.mem_filter]
  rintro ⟨e, ⟨_, he⟩, hek⟩
  simp [hek] at he

theorem get_foldl_bump (ts : List String) (m : WordCounts) (t : String) :
    (ts.foldl bump m).get t = m.get t + ts.count t := by
  induction ts generalizing m with
  | nil => simp
  | cons a ts ih =>
    rw [List.foldl_cons, ih, get_bump, List.count_cons]
    by_cases hta : t = a
    · subst hta
      simp
      omega
    · have : (a == t) = false := by
        simp
        exact fun h => hta h.symm
      simp [hta, this]

theorem positive_foldl_bump (ts : List String) (m : WordCounts) (h : m.Positive) :
    (ts.foldl bump m).Positive := by
  induction ts generalizing m with
  | nil => exact h
  | cons a ts ih => exact ih _ (positive_bump m a h)

theorem keys_nodup_foldl_bump (ts : List String) (m : WordCounts) (h : m.keys.Nodup) :
    (ts.foldl bump m).keys.Nodup := by
  induction ts generalizing m with
  | nil => exact h
  | cons a ts ih => exact ih _ (keys_nodup_bump m a h)

theorem foldl_countPiece (U : RuneTables) (pieces : List String) (m : WordCounts) :
    pieces.foldl (countPiece U) m =
      (((pieces.map (tidyWord U)).filter (fun ss => !ignoreWord ss))).foldl bump m := by
  induction pieces generalizing m with
  | nil => rfl
  | cons p ps ih =>
    rw [List.foldl_cons, ih, List.map_cons, List.filter_cons]
    by_cases hp : ignoreWord (tidyWord U p) = true
    · simp [countPiece, hp]
    · simp [countPiece, hp, bump]

/-- The nested loops of `cloud` over one text count the tokens of the
normaliser, one by one. -/
theorem countText_eq (U : RuneTables) (m : WordCounts) (text : String) :
    countText U m text = (normalize U text).foldl bump m := by
  unfold countText normalize
  generalize split text ' ' = ws
  induction ws generalizing m with
  | nil => rfl
  | cons w ws ih =>
    rw [List.foldl_cons, ih, List.flatMap_cons, List.foldl_append, foldl_countPiece]

theorem lookup_of_positive (m : WordCounts) (h : m.Positive) (t : String) :
    List.lookup t m = if m.get t = 0 then none else some (m.get t) := by
  unfold WordCounts.get
  cases hl : List.lookup t m with
  | none => simp
  | some v =>
    have := h t v hl
    have hv : v ≠ 0 := by omega
    simp [hv]

/-- The state of the post loop of `cloud` in terms of the normaliser. -/
theorem cloudLoop_from (U : RuneTables) (inc : String → Bool) (posts : List post)
    (st : CloudState) (t : String) :
    (posts.foldl (cloudStep U inc) st).wordCounts.get t =
        st.wordCounts.get t +
          ((posts.filter (fun p => inc p.Title)).map
            (fun p => (normalize U p.Title).count t + (normalize U p.Desc).count t)).sum ∧
      (st.wordCounts.Positive → (posts.foldl (cloudStep U inc) st).wordCounts.Positive) ∧
      (st.wordCounts.keys.Nodup → (posts.foldl (cloudStep U inc) st).wordCounts.keys.Nodup) ∧
      (posts.foldl (cloudStep U inc) st).postCount =
        st.postCount + (posts.filter (fun p => inc p.Title)).length := by
  induction posts generalizing st with
  | nil => simp
  | cons p ps ih =>
    rw [List.foldl_cons]
    obtain ⟨i1, i2, i3, i4⟩ := ih (cloudStep U inc st p)
    by_cases hp : inc p.Title = true
    · have hstep : cloudStep U inc st p =
          { wordCounts := countText U (countText U st.wordCounts p.Title) p.Desc
            postCount := st.postCount + 1 } := by
        simp [cloudStep, hp]
      rw [hstep] at i1 i2 i3 i4 ⊢
      simp only [countText_eq] at i1 i2 i3 i4 ⊢
      refine ⟨?_, ?_, ?_, ?_⟩
      · rw [i1, get_foldl_bump, get_foldl_bump]
        simp [List.filter_cons, hp]
        omega
      · intro h
        exact i2 (positive_foldl_bump _ _ (positive_foldl_bump _ _ h))
      · intro h
        exact i3 (keys_nodup_foldl_bump _ _ (keys_nodup_foldl_bump _ _ h))
      · rw [i4]
        simp [List.filter_cons, hp]
        omega
    · have hstep : cloudStep U inc st p = st := by
        simp [cloudStep, hp]
      rw [hstep] at i1 i2 i3 i4 ⊢
      simp only [List.filter_cons, hp]
      exact ⟨i1, i2, i3, i4⟩

/-! ## The version pattern -/

theorem versionRest_iff (l : List Char) :
    versionRest l = true ↔
      ∃ ds e suf, l = ds ++ '.' :: e :: suf ∧ (∀ c ∈ ds, c.isDigit = true) ∧
        e.isDigit = true := by
  induction l with
  | nil =>
    simp [versionRest]
  | cons c cs ih =>
    unfold versionRest
    by_cases hc : c.isDigit = true
    · simp only [hc, if_true]
      rw [ih]
      constructor
      · rintro ⟨ds, e, suf, rfl, hds, he⟩
        refine ⟨c :: ds, e, suf, rfl, ?_, he⟩
        intro x hx
        rcases List.mem_cons.mp hx with rfl | hx
        · exact hc
        · exact hds x hx
      · rintro ⟨ds, e, suf, hl, hds, he⟩
        cases ds with
        | nil =>
          simp only [List.nil_append, List.cons.injEq] at hl
          rw [hl.1] at hc
          exact absurd hc (by decide)
        | cons d ds =>
          simp only [List.cons_append, List.cons.injEq] at hl
          exact ⟨ds, e, suf, hl.2, fun x hx => hds x (List.mem_cons_of_mem _ hx), he⟩
    · simp only [hc, Bool.false_eq_true, if_false, Bool.and_eq_true, decide_eq_true_eq]
      constructor
      · rintro ⟨rfl, h⟩
        cases cs with
        | nil => simp at h
        | cons e suf => exact ⟨[], e, suf, rfl, by simp, h⟩
      · rintro ⟨ds, e, suf, hl, hds, he⟩
        cases ds with
        | nil =>
          simp only [List.nil_append, List.cons.injEq] at hl
          obtain ⟨rfl, rfl⟩ := hl
          exact ⟨rfl, he⟩
        | cons d ds =>
          simp only [List.cons_append, List.cons.injEq] at hl
          rw [hl.1] at hc
          exact absurd (hds d (List.mem_cons_self _ _)) hc

theorem versionAt_iff (l : List Char) :
    versionAt l = true ↔
      ∃ d ds e suf, l = 'v' :: d :: (ds ++ '.' :: e :: suf) ∧ d.isDigit = true ∧
        (∀ c ∈ ds, c.isDigit = true) ∧ e.isDigit = true := by
  match l with
  | [] => simp [versionAt]
  | [c] => simp [versionAt]
  | c :: d :: cs =>
    simp only [versionAt, Bool.and_eq_true, decide_eq_true_eq, versionRest_iff]
    constructor
    · rintro ⟨⟨rfl, hd⟩, ds, e, suf, rfl, hds, he⟩
      exact ⟨d, ds, e, suf, rfl, hd, hds, he⟩
    · rintro ⟨d1, ds, e, suf, hl, hd, hds, he⟩
      simp only [List.cons.injEq] at hl
      obtain ⟨rfl, rfl, rfl⟩ := hl
      exact ⟨⟨rfl, hd⟩, ds, e, suf, rfl, hds, he⟩

theorem versionSearch_iff (l : List Char) :
    versionSearch l = true ↔ ∃ pre suf, l = pre ++ suf ∧ versionAt suf = true := by
  induction l with
  | nil =>
    simp [versionSearch, versionAt]
  | cons c cs ih =>
    simp only [versionSearch, Bool.or_eq_true, ih]
    constructor
    · rintro (h | ⟨pre, suf, rfl, h⟩)
      · exact ⟨[], c :: cs, rfl, h⟩
      · exact ⟨c :: pre, suf, rfl, h⟩
    · rintro ⟨pre, suf, hl, h⟩
      cases pre with
      | nil =>
        simp only [List.nil_append] at hl
        subst hl
        exact Or.inl h
      | cons p pre =>
        simp only [List.cons_append, List.cons.injEq] at hl
        exact Or.inr ⟨pre, suf, hl.2, h⟩

/-- The search function decides the pattern `v\d+\.\d+`. -/
theorem versionSearch_iff_matches (l : List Char) :
    versionSearch l = true ↔ MatchesVersion l := by
  rw [versionSearch_iff]
  unfold MatchesVersion
  constructor
  · rintro ⟨pre, suf, rfl, h⟩
    obtain ⟨d, ds, e, rest, rfl, hd, hds, he⟩ := (versionAt_iff _).mp h
    refine ⟨pre, d :: ds, [e], rest, by simp, by simp, by simp, ?_, by simpa using he⟩
    intro c hc
    rcases List.mem_cons.mp hc with rfl | hc
    · exact hd
    · exact hds c hc
  · rintro ⟨pre, ds, es, suf, rfl, hds0, hes0, hds, hes⟩
    cases ds with
    | nil => exact absurd rfl hds0
    | cons d ds =>
      cases es with
      | nil => exact absurd rfl hes0
      | cons e es =>
        refine ⟨pre, 'v' :: d :: (ds ++ '.' :: e :: (es ++ suf)), by simp, ?_⟩
        rw [versionAt_iff]
        exact ⟨d, ds, e, es ++ suf, rfl, hds d (List.mem_cons_self _ _),
          fun c hc => hds c (List.mem_cons_of_mem _ hc), hes e (List.mem_cons_self _ _)⟩

/-! ## Claims about the word counts -/

theorem keys_bump_subset (m : WordCounts) (t k : String) (h : k ∈ (bump m t).keys) :
    k = t ∨ k ∈ m.keys := by
  unfold bump WordCounts.put WordCounts.keys at h
  unfold WordCounts.keys
  simp only [List.map_cons, List.mem_cons, List.mem_map, List.mem_filter] at h
  rcases h with h | ⟨e, ⟨he, _⟩, hek⟩
  · exact Or.inl h
  · exact Or.inr (List.mem_map.mpr ⟨e, he, hek⟩)

theorem keys_foldl_bump_subset (ts : List String) (m : WordCounts) (k : String)
    (h : k ∈ (ts.foldl bump m).keys) : k ∈ ts ∨ k ∈ m.keys := by
  induction ts generalizing m with
  | nil => exact Or.inr h
  | cons a ts ih =>
    rw [List.foldl_cons] at h
    rcases ih _ h with h1 | h1
    · exact Or.inl (List.mem_cons_of_mem _ h1)
    · rcases keys_bump_subset m a k h1 with h2 | h2
      · exact Or.inl (h2 ▸ List.mem_cons_self _ _)
      · exact Or.inr h2

theorem ignoreWord_of_mem_normalize (U : RuneTables) (text t : String)
    (h : t ∈ normalize U text) : ignoreWord t = false := by
  unfold normalize at h
  simp only [List.mem_flatMap, List.mem_filter, Bool.not_eq_true'] at h
  obtain ⟨_, _, _, ht⟩ := h
  exact ht

theorem keys_cloudLoop_from (U : RuneTables) (inc : String → Bool) (posts : List post)
    (st : CloudState) (k : String)
    (h : k ∈ (posts.foldl (cloudStep U inc) st).wordCounts.keys) :
    ignoreWord k = false ∨ k ∈ st.wordCounts.keys := by
  induction posts generalizing st with
  | nil => exact Or.inr h
  | cons p ps ih =>
    rw [List.foldl_cons] at h
    rcases ih _ h with h1 | h1
    · exact Or.inl h1
    · unfold cloudStep at h1
      split at h1
      · exact Or.inr h1
      · simp only [countText_eq] at h1
        rcases keys_foldl_bump_subset _ _ _ h1 with h2 | h2
        · exact Or.inl (ignoreWord_of_mem_normalize U _ _ h2)
        · rcases keys_foldl_bump_subset _ _ _ h2 with h3 | h3
          · exact Or.inl (ignoreWord_of_mem_normalize U _ _ h3)
          · exact Or.inr h3

theorem of_ignoreWord_false (k : String) (h : ignoreWord k = false) :
    k ≠ "" ∧ k ∉ stopwords ∧ versionRegexpMatchString k = false := by
  unfold ignoreWord at h
  split at h
  · cases h
  · rename_i h1
    split at h
    · cases h
    · rename_i h2
      split at h
      · cases h
      · rename_i h3
        refine ⟨h1, ?_, by simpa using h3⟩
        intro hmem
        apply h2
        simp [inStopWordsMap, hmem]

/-- C5: for every post collection and every inclusion predicate, every key of
the map that `cloud` builds is a non-empty string, is not an entry of the
stopword list, and contains no match of the version pattern `v\d+\.\d+`. -/
theorem C5_keys_are_filtered (U : RuneTables) (shouldInclude : String → Bool)
    (posts : List post) (k : String)
    (hk : k ∈ (cloudLoop U shouldInclude posts).wordCounts.keys) :
    k ≠ "" ∧ k ∉ stopwords ∧ versionRegexpMatchString k = false ∧
      ¬ MatchesVersion k.data := by
  have h : ignoreWord k = false := by
    rcases keys_cloudLoop_from U shouldInclude posts ⟨[], 0⟩ k hk with h | h
    · exact h
    · simp [WordCounts.keys] at h
  obtain ⟨h1, h2, h3⟩ := of_ignoreWord_false k h
  refine ⟨h1, h2, h3, ?_⟩
  intro hm
  have := (versionSearch_iff_matches k.data).mpr hm
  unfold versionRegexpMatchString at h3
  rw [this] at h3
  cases h3

/-- C5 at one post with the ASCII tables: "launch" is a key of the map. -/
theorem C5_keys_are_filtered_witness :
    "launch" ∈ (cloudLoop asciiTables (fun _ => true)
        [⟨"AWS v1.2 Launch-Day", ⟨2006, 1, 2⟩, "The launch of the day"⟩]).wordCounts.keys ∧
      ("launch" ≠ "" ∧ "launch" ∉ stopwords ∧ versionRegexpMatchString "launch" = false ∧
        ¬ MatchesVersion "launch".data) :=
  ⟨by decide,
    C5_keys_are_filtered asciiTables (fun _ => true)
      [⟨"AWS v1.2 Launch-Day", ⟨2006, 1, 2⟩, "The launch of the day"⟩] "launch" (by decide)⟩

/-- C6: for every loaded post list, query and list of hit identifiers, the map
that `cloud` builds holds for a term `t` exactly the number of occurrences of
`t` in the normalised titles and descriptions of the included posts, counted
per occurrence, and has no entry for a term without occurrence; every post is
included for the empty query, and for a non-empty query exactly the posts
whose title is the identifier of a hit.  The map has one entry per key, and
`postCount` is the number of included posts. -/
theorem C6_counts_are_occurrences (U : RuneTables) (posts : List post) (q : String)
    (hits : List String) (t : String) :
    List.lookup t (cloud U posts q hits).wordCounts =
        (if ((posts.filter (fun p => decide (q = "" ∨ p.Title ∈ hits))).map
              (fun p => (normalize U p.Title).count t + (normalize U p.Desc).count t)).sum = 0
         then none
         else some ((posts.filter (fun p => decide (q = "" ∨ p.Title ∈ hits))).map
              (fun p => (normalize U p.Title).count t + (normalize U p.Desc).count t)).sum) ∧
      (cloud U posts q hits).wordCounts.keys.Nodup ∧
      (cloud U posts q hits).postCount =
        (posts.filter (fun p => decide (q = "" ∨ p.Title ∈ hits))).length := by
  have hinc : (fun p : post => shouldIncludePost q hits p.Title) =
      (fun p => decide (q = "" ∨ p.Title ∈ hits)) := by
    funext p
    unfold shouldIncludePost
    by_cases hq : q = ""
    · simp [hq]
    · simp [hq]
  obtain ⟨h1, h2, h3, h4⟩ := cloudLoop_from U (shouldIncludePost q hits) posts ⟨[], 0⟩ t
  rw [hinc] at h1 h4
  have hpos : (cloud U posts q hits).wordCounts.Positive := by
    apply h2
    intro a v hv
    simp at hv
  have hget : (cloud U posts q hits).wordCounts.get t =
      ((posts.filter (fun p => decide (q = "" ∨ p.Title ∈ hits))).map
        (fun p => (normalize U p.Title).count t + (normalize U p.Desc).count t)).sum := by
    unfold cloud cloudLoop
    rw [h1]
    simp [WordCounts.get]
  refine ⟨?_, ?_, ?_⟩
  · rw [lookup_of_positive _ hpos, hget]
  · apply h3
    simp [WordCounts.keys]
  · unfold cloud cloudLoop
    rw [h4]
    simp

/-- C4 fails on the code: the text "AWS v1.2 Launch-Day" is normalised to the
four tokens "aws", "v", "launch", "day".  The piece "v1.2" loses its digits
and its dot in `tidyWord` before `ignoreWord` tests the version pattern, so it
contributes the token "v", which `cloud` counts. -/
theorem C4_version_piece_leaves_token :
    normalize asciiTables "AWS v1.2 Launch-Day" = ["aws", "v", "launch", "day"] ∧
      versionRegexpMatchString "v1.2" = true ∧
      tidyWord asciiTables "v1.2" = "v" ∧
      ignoreWord (tidyWord asciiTables "v1.2") = false ∧
      normalize asciiTables "v1.2" = ["v"] ∧
      List.lookup "v" (cloud asciiTables [⟨"AWS v1.2 Launch-Day", ⟨2006, 1, 2⟩, ""⟩] ""
        []).wordCounts = some 1 := by
  refine ⟨by decide, by decide, by decide, by decide, by decide, by decide⟩

/-! ## Idempotence of the normaliser -/

theorem splitChars_ne_nil (sep : Char) (l : List Char) : splitChars sep l ≠ [] := by
  cases l with
  | nil => simp [splitChars]
  | cons c cs =>
    unfold splitChars
    split
    · simp
    · split <;> simp

theorem splitChars_no_sep (sep : Char) (l : List Char) :
    ∀ w ∈ splitChars sep l, sep ∉ w := by
  induction l with
  | nil => simp [splitChars]
  | cons c cs ih =>
    intro w hw
    unfold splitChars at hw
    split at hw
    · rcases List.mem_cons.mp hw with rfl | hw
      · simp
      · exact ih w hw
    · rename_i hc
      split at hw
      · rename_i hnil
        exact absurd hnil (splitChars_ne_nil sep cs)
      · rename_i w0 ws heq
        rw [heq] at ih
        rcases List.mem_cons.mp hw with rfl | hw
        · intro hmem
          rcases List.mem_cons.mp hmem with h | h
          · exact hc h.symm
          · exact ih w0 (List.mem_cons_self _ _) h
        · exact ih w (List.mem_cons_of_mem _ hw)

theorem splitChars_of_not_mem (sep : Char) (l : List Char) (h : sep ∉ l) :
    splitChars sep l = [l] := by
  induction l with
  | nil => rfl
  | cons c cs ih =>
    have hc : ¬ c = sep := fun e => h (e ▸ List.mem_cons_self _ _)
    have hcs : sep ∉ cs := fun e => h (List.mem_cons_of_mem _ e)
    unfold splitChars
    simp [hc, ih hcs]

theorem split_of_not_mem (s : String) (sep : Char) (h : sep ∉ s.data) :
    split s sep = [s] := by
  unfold split
  rw [splitChars_of_not_mem sep s.data h]
  rfl

theorem tidyWord_data (U : RuneTables) (s : String) :
    (tidyWord U s).data =
      (s.data.filter (fun ss => !(U.isPunct ss || U.isNumber ss))).map U.toLower := rfl

theorem tidyWord_idem (U : RuneTables) (hU : U.Stable) (w : String) :
    tidyWord U (tidyWord U w) = tidyWord U w := by
  apply String.ext
  rw [tidyWord_data U (tidyWord U w), tidyWord_data U w]
  generalize w.data = l
  induction l with
  | nil => rfl
  | cons c cs ih =>
    by_cases hc : (!(U.isPunct c || U.isNumber c)) = true
    · have hc2 : U.isPunct c = false ∧ U.isNumber c = false := by
        simpa using hc
      have hk := hU.keep c hc2.1 hc2.2
      have hi := hU.idem c hc2.1 hc2.2
      simp only [List.filter_cons, hc, if_true, List.map_cons, hk.1, hk.2, Bool.or_self,
        Bool.not_false, hi]
      rw [ih]
    · simp only [List.filter_cons, hc, if_false, Bool.false_eq_true]
      exact ih

theorem tidyWord_no_sep (U : RuneTables) (hU : U.Stable) (piece : String)
    (h : ' ' ∉ piece.data) :
    ' ' ∉ (tidyWord U piece).data ∧ '-' ∉ (tidyWord U piece).data := by
  rw [tidyWord_data]
  constructor
  · intro hmem
    simp only [List.mem_map, List.mem_filter] at hmem
    obtain ⟨c, ⟨hc, _⟩, hcl⟩ := hmem
    have := hU.space c hcl
    exact h (this ▸ hc)
  · intro hmem
    simp only [List.mem_map, List.mem_filter, Bool.not_eq_true', Bool.or_eq_false_iff] at hmem
    obtain ⟨c, ⟨_, hp, hn⟩, hcl⟩ := hmem
    have hk := (hU.keep c hp hn).1
    rw [hcl, hU.hyphen] at hk
    cases hk

/-- C9: under the stated properties of the Unicode tables, `tidyWord` is
idempotent on every string, and every token that the normaliser emits for a
text is normalised to the one-token sequence of itself. -/
theorem C9_normaliser_idempotent (U : RuneTables) (hU : U.Stable) (w s t : String)
    (ht : t ∈ normalize U s) :
    tidyWord U (tidyWord U w) = tidyWord U w ∧ normalize U t = [t] := by
  refine ⟨tidyWord_idem U hU w, ?_⟩
  have hign := ignoreWord_of_mem_normalize U s t ht
  unfold normalize at ht
  simp only [List.mem_flatMap, List.mem_filter, List.mem_map] at ht
  obtain ⟨a, ha, ⟨piece, hpiece, rfl⟩, _⟩ := ht
  have hsp : ' ' ∉ piece.data := by
    unfold split at ha hpiece
    simp only [List.mem_map] at ha hpiece
    obtain ⟨la, hla, rfl⟩ := ha
    obtain ⟨lp, hlp, rfl⟩ := hpiece
    have h1 := splitChars_no_sep ' ' s.data la hla
    intro hmem
    -- a piece of `la` split on hyphens is made of characters of `la`
    have hsub : ∀ (l : List Char) (x : List Char), x ∈ splitChars '-' l → ∀ c ∈ x, c ∈ l := by
      intro l
      induction l with
      | nil =>
        intro x hx c hc
        simp [splitChars] at hx
        subst hx
        cases hc
      | cons d ds ih =>
        intro x hx c hc
        unfold splitChars at hx
        split at hx
        · rcases List.mem_cons.mp hx with rfl | hx
          · cases hc
          · exact List.mem_cons_of_mem _ (ih x hx c hc)
        · split at hx
          · rename_i hnil
            exact absurd hnil (splitChars_ne_nil _ _)
          · rename_i w0 ws heq
            rw [heq] at ih
            rcases List.mem_cons.mp hx with rfl | hx
            · rcases List.mem_cons.mp hc with rfl | hc
              · exact List.mem_cons_self _ _
              · exact List.mem_cons_of_mem _ (ih w0 (List.mem_cons_self _ _) c hc)
            · exact List.mem_cons_of_mem _ (ih x (List.mem_cons_of_mem _ hx) c hc)
    exact h1 (hsub la lp hlp ' ' hmem)
  obtain ⟨h1, h2⟩ := tidyWord_no_sep U hU piece hsp
  unfold normalize
  rw [split_of_not_mem _ ' ' h1]
  simp only [List.flatMap_cons, List.flatMap_nil, List.append_nil]
  rw [split_of_not_mem _ '-' h2]
  simp [tidyWord_idem U hU piece, hign]

theorem asciiTables_upper (c : Char) (h : c.toNat ≥ 65 ∧ c.toNat ≤ 90) :
    asciiTables.isPunct (Char.ofNat (c.toNat + 32)) = false ∧
      asciiTables.isNumber (Char.ofNat (c.toNat + 32)) = false ∧
      asciiTables.toLower (Char.ofNat (c.toNat + 32)) = Char.ofNat (c.toNat + 32) ∧
      Char.ofNat (c.toNat + 32) ≠ ' ' := by
  obtain ⟨h1, h2⟩ := h
  generalize c.toNat = n at h1 h2
  interval_cases n <;> decide

/-- The ASCII tables have the properties that idempotence rests on. -/
theorem asciiTables_stable : asciiTables.Stable where
  hyphen := by decide
  keep := by
    intro c hp hn
    by_cases hu : c.toNat ≥ 65 ∧ c.toNat ≤ 90
    · have hl : asciiTables.toLower c = Char.ofNat (c.toNat + 32) := by
        simp [asciiTables, Char.toLower, hu]
      rw [hl]
      exact ⟨(asciiTables_upper c hu).1, (asciiTables_upper c hu).2.1⟩
    · have hl : asciiTables.toLower c = c := by
        simp only [asciiTables, Char.toLower]
        rw [if_neg hu]
      rw [hl]
      exact ⟨hp, hn⟩
  idem := by
    intro c _ _
    by_cases hu : c.toNat ≥ 65 ∧ c.toNat ≤ 90
    · have hl : asciiTables.toLower c = Char.ofNat (c.toNat + 32) := by
        simp [asciiTables, Char.toLower, hu]
      rw [hl]
      exact (asciiTables_upper c hu).2.2.1
    · have hl : asciiTables.toLower c = c := by
        simp only [asciiTables, Char.toLower]
        rw [if_neg hu]
      rw [hl, hl]
  space := by
    intro c hc
    by_cases hu : c.toNat ≥ 65 ∧ c.toNat ≤ 90
    · have hl : asciiTables.toLower c = Char.ofNat (c.toNat + 32) := by
        simp [asciiTables, Char.toLower, hu]
      rw [hl] at hc
      exact absurd hc (asciiTables_upper c hu).2.2.2
    · have hl : asciiTables.toLower c = c := by
        simp only [asciiTables, Char.toLower]
        rw [if_neg hu]
      rw [hl] at hc
      exact hc

/-- C9 at the ASCII tables: the token "launch" emitted for the text
"AWS v1.2 Launch-Day" is normalised to itself, and tidying "Launch-Day!" twice
is tidying it once. -/
theorem C9_normaliser_idempotent_witness :
    asciiTables.Stable ∧ "launch" ∈ normalize asciiTables "AWS v1.2 Launch-Day" ∧
      (tidyWord asciiTables (tidyWord asciiTables "Launch-Day!") =
          tidyWord asciiTables "Launch-Day!" ∧
        normalize asciiTables "launch" = ["launch"]) :=
  ⟨asciiTables_stable, by decide,
    C9_normaliser_idempotent asciiTables asciiTables_stable "Launch-Day!"
      "AWS v1.2 Launch-Day" "launch" (by decide)⟩

/-! ## The version test after `tidyWord` -/

theorem versionSearch_has_digit (l : List Char) (h : versionSearch l = true) :
    ∃ c ∈ l, c.isDigit = true := by
  obtain ⟨pre, ds, es, suf, rfl, hds0, _, hds, _⟩ := (versionSearch_iff_matches l).mp h
  cases ds with
  | nil => exact absurd rfl hds0
  | cons d ds =>
    exact ⟨d, by simp, hds d (List.mem_cons_self _ _)⟩

/-- When lower-casing makes no ASCII digit out of a rune that is kept, a tidied
word holds no digit, so the version pattern never matches the argument that
`cloud` passes to `ignoreWord`. -/
theorem version_test_never_fires (U : RuneTables)
    (hlow : ∀ c, U.isPunct c = false → U.isNumber c = false → (U.toLower c).isDigit = false)
    (w : String) : versionRegexpMatchString (tidyWord U w) = false := by
  cases hv : versionRegexpMatchString (tidyWord U w) with
  | false => rfl
  | true =>
    obtain ⟨c, hc, hd⟩ := versionSearch_has_digit _ hv
    rw [tidyWord_data] at hc
    simp only [List.mem_map, List.mem_filter, Bool.not_eq_true', Bool.or_eq_false_iff] at hc
    obtain ⟨a, ⟨_, hp, hn⟩, rfl⟩ := hc
    rw [hlow a hp hn] at hd
    cases hd

/-- With the ASCII tables the version pattern never matches a tidied word. -/
theorem version_test_never_fires_ascii (w : String) :
    versionRegexpMatchString (tidyWord asciiTables w) = false := by
  apply version_test_never_fires
  intro c hp hn
  by_cases hu : c.toNat ≥ 65 ∧ c.toNat ≤ 90
  · have hl : asciiTables.toLower c = Char.ofNat (c.toNat + 32) := by
      simp [asciiTables, Char.toLower, hu]
    rw [hl]
    exact (asciiTables_upper c hu).2.1
  · have hl : asciiTables.toLower c = c := by
      simp only [asciiTables, Char.toLower]
      rw [if_neg hu]
    rw [hl]
    exact hn

/-! ## The scanner and `load` -/

/-- A line that does not end within the buffer limit stops the scanner with
`ErrTooLong`, and no token is delivered for it. -/
theorem scanTokens_tooLong (limit : Nat) (pre rest cur : List Char) (n : Nat)
    (hpre : ∀ c ∈ pre, c ≠ '\n') (hrest : rest ≠ []) (hlen : limit ≤ n + pre.length) :
    scanTokens limit (pre ++ rest) cur n = ([], true) := by
  induction pre generalizing cur n with
  | nil =>
    cases rest with
    | nil => exact absurd rfl hrest
    | cons c r =>
      have : limit ≤ n := by simpa using hlen
      simp [scanTokens, this]
  | cons p ps ih =>
    rw [List.cons_append]
    unfold scanTokens
    by_cases hn : limit ≤ n
    · simp [hn]
    · have hp : p ≠ '\n' := hpre p (List.mem_cons_self _ _)
      simp only [hn, if_false, hp]
      apply ih
      · exact fun c hc => hpre c (List.mem_cons_of_mem _ hc)
      · have := Char.utf8Size_pos p
        simp only [List.length_cons] at hlen
        omega

/-- A line that ends within the buffer limit is delivered as a token. -/
theorem scanTokens_line (limit : Nat) (pre rest cur : List Char) (n : Nat)
    (hpre : ∀ c ∈ pre, c ≠ '\n') (hlen : n + (pre.map Char.utf8Size).sum < limit) :
    scanTokens limit (pre ++ '\n' :: rest) cur n =
      (⟨dropCR (pre.reverse ++ cur)⟩ :: (scanTokens limit rest [] 0).1,
        (scanTokens limit rest [] 0).2) := by
  induction pre generalizing cur n with
  | nil =>
    have : ¬ limit ≤ n := by
      simp at hlen
      omega
    simp [scanTokens, this]
  | cons p ps ih =>
    rw [List.cons_append]
    simp only [List.map_cons, List.sum_cons] at hlen
    have hn : ¬ limit ≤ n := by omega
    have hp : p ≠ '\n' := hpre p (List.mem_cons_self _ _)
    conv_lhs => rw [scanTokens]
    simp only [hn, if_false, hp]
    rw [ih (p :: cur) (n + p.utf8Size) (fun c hc => hpre c (List.mem_cons_of_mem _ hc))
      (by omega)]
    simp

theorem dropCR_cons (c : Char) (t : List Char) (h : c ≠ '\r') :
    dropCR (c :: t) = (c :: t).reverse := by
  unfold dropCR
  split
  · rename_i heq
    simp only [List.cons.injEq] at heq
    exact absurd heq.1 h
  · rfl

theorem flatMap_escapeChar_replicate (n : Nat) (c : Char) (h : escapeChar c = [c]) :
    (List.replicate n c).flatMap escapeChar = List.replicate n c := by
  induction n with
  | zero => rfl
  | succ n ih => simp [List.replicate_succ, h, ih]

theorem dropCR_replicate (n : Nat) (c : Char) (h : c ≠ '\r') :
    dropCR (List.replicate n c) = List.replicate n c := by
  cases n with
  | zero => rfl
  | succ n =>
    rw [List.replicate_succ, dropCR_cons c _ h, ← List.replicate_succ, List.reverse_replicate]

theorem utf8Size_sum_replicate (n : Nat) (c : Char) (h : c.utf8Size = 1) :
    ((List.replicate n c).map Char.utf8Size).sum = n := by
  induction n with
  | zero => rfl
  | succ n ih =>
    rw [List.replicate_succ, List.map_cons, List.sum_cons, ih, h]
    omega

/-- The scanner delivers the three lines of a corpus whose first and third
lines are runs of a letter shorter than the buffer limit. -/
theorem scanLines_runs (n m : Nat) (hn : n < 65536) (hm : m < 65536) :
    scanLines (fileOfLines [⟨List.replicate n 'a'⟩, "Posted On: Jan 2, 2006",
        ⟨List.replicate m 'b'⟩]) =
      ([⟨List.replicate n 'a'⟩, "Posted On: Jan 2, 2006", ⟨List.replicate m 'b'⟩], false) := by
  unfold scanLines fileOfLines
  simp only [List.flatMap_cons, List.flatMap_nil, List.append_nil, List.append_assoc,
    List.singleton_append]
  rw [scanTokens_line, scanTokens_line, scanTokens_line]
  · simp only [List.append_nil, List.reverse_replicate]
    rw [dropCR_replicate n 'a' (by decide), dropCR_replicate m 'b' (by decide)]
    rfl
  · intro c hc
    rw [List.eq_of_mem_replicate hc]
    decide
  · rw [utf8Size_sum_replicate m 'b' (by decide)]
    simp only [maxScanTokenSize]
    omega
  · decide
  · decide
  · intro c hc
    rw [List.eq_of_mem_replicate hc]
    decide
  · rw [utf8Size_sum_replicate n 'a' (by decide)]
    simp only [maxScanTokenSize]
    omega

/-- The scanner of `index` delivers the three lines of the long corpus. -/
theorem scanLines_longCorpus : scanLines (fileOfLines longCorpus) = (longCorpus, false) :=
  scanLines_runs 40000 40000 (by decide) (by decide)

theorem encodeString_replicate (n : Nat) (c : Char) (h : escapeChar c = [c]) :
    encodeString ⟨List.replicate n c⟩ = ⟨'"' :: (List.replicate n c ++ ['"'])⟩ := by
  unfold encodeString
  simp only [flatMap_escapeChar_replicate n c h]
  rfl

theorem marshal_runs (n m : Nat) :
    marshal ⟨⟨List.replicate n 'a'⟩, ⟨2006, 1, 2⟩, ⟨List.replicate m 'b'⟩⟩ =
      some ⟨"\x7b\"title\":\"".data ++ (List.replicate n 'a' ++
        ("\",\"date\":\"2006-01-02T00:00:00Z\",\"desc\":\"".data ++
          (List.replicate m 'b' ++ "\"\x7d".data)))⟩ := by
  have ht : marshalTime ⟨2006, 1, 2⟩ = some "\"2006-01-02T00:00:00Z\"" := by decide
  unfold marshal
  simp only [ht, encodeString_replicate n 'a' (by decide),
    encodeString_replicate m 'b' (by decide)]
  congr 1
  apply String.ext
  simp only [String.data_append]
  simp

/-- A store whose first record is that of a post with runs of `n` and `m`
letters as title and description, `n + m` being at least the buffer limit, is
loaded as the empty list, whatever follows the record. -/
theorem load_runs (unmarshal : String → post) (n m : Nat) (h : 65536 ≤ n + m)
    (jj : String) (more : List String)
    (hjj : marshal ⟨⟨List.replicate n 'a'⟩, ⟨2006, 1, 2⟩, ⟨List.replicate m 'b'⟩⟩ = some jj) :
    load unmarshal (fileOfLines (jj :: more)) = [] := by
  rw [marshal_runs] at hjj
  injection hjj with hjj
  subst hjj
  have hA : ∀ c ∈ "\x7b\"title\":\"".data, c ≠ '\n' := by decide
  have hB : ∀ c ∈ "\",\"date\":\"2006-01-02T00:00:00Z\",\"desc\":\"".data, c ≠ '\n' := by
    decide
  have hC : ∀ c ∈ "\"\x7d".data, c ≠ '\n' := by decide
  unfold load scanLines fileOfLines
  simp only [List.flatMap_cons, List.append_assoc, List.singleton_append]
  have hscan : ∀ rest : List Char,
      scanTokens maxScanTokenSize
        (("\x7b\"title\":\"".data ++ (List.replicate n 'a' ++
          ("\",\"date\":\"2006-01-02T00:00:00Z\",\"desc\":\"".data ++
            (List.replicate m 'b' ++ "\"\x7d".data)))) ++ '\n' :: rest) [] 0 = ([], true) := by
    intro rest
    apply scanTokens_tooLong
    · intro c hc
      simp only [List.mem_append] at hc
      rcases hc with hc | hc | hc | hc | hc
      · exact hA c hc
      · rw [List.eq_of_mem_replicate hc]
        decide
      · exact hB c hc
      · rw [List.eq_of_mem_replicate hc]
        decide
      · exact hC c hc
    · simp
    · simp only [List.length_append, List.length_replicate, maxScanTokenSize]
      omega
  have := hscan (more.flatMap (fun l => l.data ++ ['\n']))
  simp only [List.append_assoc] at this
  rw [this]
  rfl

/-- C10 fails on the code: `index` accepts the long corpus (three lines of
40000, 22 and 40000 bytes), parses it into two posts and writes two record
lines; `load` on the store written returns no post at all, because the first
record line is longer than the buffer limit of its scanner and the error of
the scanner is not looked at. -/
theorem C10_load_drops_long_records :
    ∃ out, indexFile (fun _ _ => false) (fileOfLines longCorpus) = some out ∧
      out.completed = true ∧
      out.posts = [⟨longTitle, ⟨2006, 1, 2⟩, longDesc⟩, post.zero] ∧
      out.store.length = 2 ∧
      ∀ unmarshal : String → post, load unmarshal (fileOfLines out.store) = [] := by
  obtain ⟨out, h1, h2, h3, h4, _, _⟩ := index_closed (fun _ _ => false) longCorpus
  have hposts : out.posts = [⟨longTitle, ⟨2006, 1, 2⟩, longDesc⟩, post.zero] := by
    rw [recordParser_closed] at h2
    injection h2 with h2
    rw [← h2]
    have hd : dateOf "Posted On: Jan 2, 2006" = ⟨2006, 1, 2⟩ := by decide
    have hlen : longCorpus.length / 3 + 1 = 2 := rfl
    rw [hlen]
    simp only [List.range_succ, List.range_zero, List.nil_append, List.cons_append,
      List.map_cons, List.map_nil]
    rw [tripletPost_of_le longCorpus 1 (by decide)]
    simp [tripletPost, longCorpus, hd]
  refine ⟨out, ?_, h3, hposts, ?_, ?_⟩
  · unfold indexFile
    rw [scanLines_longCorpus]
    exact h1
  · have := congrArg List.length h4
    simp only [List.length_map] at this
    rw [this, hposts]
    rfl
  · intro unmarshal
    rw [hposts] at h4
    obtain ⟨jj, hjj⟩ := marshal_isSome ⟨longTitle, ⟨2006, 1, 2⟩, longDesc⟩ (by decide)
    have hstore : ∃ more, out.store = jj :: more := by
      cases hs : out.store with
      | nil =>
        rw [hs] at h4
        simp at h4
      | cons a more =>
        rw [hs] at h4
        simp only [List.map_cons, List.cons.injEq] at h4
        rw [hjj] at h4
        exact ⟨more, by rw [Option.some.inj h4.1]⟩
    obtain ⟨more, hmore⟩ := hstore
    rw [hmore]
    exact load_runs unmarshal 40000 40000 (by decide) jj more hjj

/-! ## The store is read back line by line when its records fit the buffer -/

theorem digitChar_ne_newline (n : Nat) : Nat.digitChar n ≠ '\n' := by
  by_cases h : n < 16
  · interval_cases n <;> decide
  · unfold Nat.digitChar
    iterate 16 rw [if_neg (by omega)]
    decide

theorem toDigitsCore_no_newline (fuel n : Nat) (acc : List Char)
    (h : ∀ c ∈ acc, c ≠ '\n') : ∀ c ∈ Nat.toDigitsCore 10 fuel n acc, c ≠ '\n' := by
  induction fuel generalizing n acc with
  | zero => simpa [Nat.toDigitsCore] using h
  | succ fuel ih =>
    have hcons : ∀ c ∈ Nat.digitChar (n % 10) :: acc, c ≠ '\n' := by
      intro c hc
      rcases List.mem_cons.mp hc with rfl | hc
      · exact digitChar_ne_newline _
      · exact h c hc
    unfold Nat.toDigitsCore
    simp only
    split
    · exact hcons
    · exact ih _ _ hcons

theorem pad_no_newline (width n : Nat) : ∀ c ∈ (pad width n).data, c ≠ '\n' := by
  intro c hc
  unfold pad at hc
  simp only [List.mem_append] at hc
  rcases hc with hc | hc
  · rw [List.eq_of_mem_replicate hc]
    decide
  · exact toDigitsCore_no_newline _ _ [] (by simp) c hc

theorem hexDigit_ne_newline (n : Nat) : hexDigit n ≠ '\n' := by
  by_cases h : n < 16
  · interval_cases n <;> decide
  · unfold hexDigit
    rw [List.getD_eq_default _ _ (by
      have : "0123456789abcdef".data.length = 16 := rfl
      omega)]
    decide

theorem escapeChar_no_newline (c : Char) : ∀ x ∈ escapeChar c, x ≠ '\n' := by
  intro x hx
  unfold escapeChar at hx
  split_ifs at hx with h1 h2 h3 h4 h5 h6 h7
  · simp only [List.mem_cons, List.mem_singleton, List.not_mem_nil, or_false] at hx
    rcases hx with rfl | rfl
    · decide
    · rcases h1 with rfl | rfl <;> decide
  · simp only [List.mem_cons, List.not_mem_nil, or_false] at hx
    rcases hx with rfl | rfl <;> decide
  · simp only [List.mem_cons, List.not_mem_nil, or_false] at hx
    rcases hx with rfl | rfl <;> decide
  · simp only [List.mem_cons, List.not_mem_nil, or_false] at hx
    rcases hx with rfl | rfl <;> decide
  · simp only [List.mem_cons, List.not_mem_nil, or_false] at hx
    rcases hx with rfl | rfl | rfl | rfl | rfl | rfl
    · decide
    · decide
    · decide
    · decide
    · exact hexDigit_ne_newline _
    · exact hexDigit_ne_newline _
  · revert x
    decide
  · revert x
    decide
  · simp only [List.mem_singleton] at hx
    rw [hx]
    exact h2

theorem encodeString_no_newline (s : String) : ∀ x ∈ (encodeString s).data, x ≠ '\n' := by
  intro x hx
  unfold encodeString at hx
  simp only [List.mem_cons, List.mem_append, List.mem_flatMap, List.not_mem_nil,
    or_false] at hx
  rcases hx with (rfl | ⟨c, _, hc⟩) | rfl
  · decide
  · exact escapeChar_no_newline c x hc
  · decide

/-- A record that `json.Marshal` yields for a post is one line: it contains no
newline, and it ends with the closing brace. -/
theorem marshal_one_line (p : post) (jj : String) (h : marshal p = some jj) :
    (∀ x ∈ jj.data, x ≠ '\n') ∧ ∃ body, jj.data = body ++ ['\x7d'] := by
  unfold marshal at h
  split at h
  · cases h
  · rename_i d hd
    injection h with h
    subst h
    have hdate : ∀ x ∈ d.data, x ≠ '\n' := by
      unfold marshalTime at hd
      split at hd
      · cases hd
      · injection hd with hd
        subst hd
        intro x hx
        simp only [String.data_append, List.mem_append] at hx
        rcases hx with ((((((hx | hx) | hx) | hx) | hx) | hx) | hx)
        · revert x
          decide
        · exact pad_no_newline _ _ x hx
        · revert x
          decide
        · exact pad_no_newline _ _ x hx
        · revert x
          decide
        · exact pad_no_newline _ _ x hx
        · revert x
          decide
    constructor
    · intro x hx
      simp only [String.data_append, List.mem_append] at hx
      rcases hx with (((((hx | hx) | hx) | hx) | hx) | hx) | hx
      · revert x
        decide
      · exact encodeString_no_newline _ x hx
      · revert x
        decide
      · exact hdate x hx
      · revert x
        decide
      · exact encodeString_no_newline _ x hx
      · revert x
        decide
    · exact ⟨_, by simp only [String.data_append]; rfl⟩

theorem dropCR_reverse (l : List Char) (h : ∀ body, l ≠ body ++ ['\r']) :
    dropCR l.reverse = l := by
  cases hr : l.reverse with
  | nil =>
    have : l = [] := by simpa using hr
    subst this
    rfl
  | cons c t =>
    have hl : l = t.reverse ++ [c] := by
      have := congrArg List.reverse hr
      simpa using this
    have hc : c ≠ '\r' := by
      intro e
      subst e
      exact h _ hl
    rw [dropCR_cons c t hc, hl]
    simp

/-- The scanner delivers every line of a file whose lines fit the buffer,
hold no newline and do not end in a carriage return. -/
theorem scanTokens_fileOfLines (limit : Nat) (recs : List String)
    (h : ∀ r ∈ recs, (∀ x ∈ r.data, x ≠ '\n') ∧
      (r.data.map Char.utf8Size).sum < limit ∧ ∀ body, r.data ≠ body ++ ['\r']) :
    scanTokens limit (recs.flatMap (fun l => l.data ++ ['\n'])) [] 0 = (recs, false) := by
  induction recs with
  | nil => simp [scanTokens]
  | cons r rs ih =>
    obtain ⟨h1, h2, h3⟩ := h r (List.mem_cons_self _ _)
    have ih2 := ih (fun q hq => h q (List.mem_cons_of_mem _ hq))
    rw [List.flatMap_cons, List.append_assoc, List.singleton_append,
      scanTokens_line limit r.data _ [] 0 h1 (by omega), ih2, List.append_nil,
      dropCR_reverse r.data h3]

theorem map_of_marshal (unmarshal : String → post) (posts : List post) (store : List String)
    (h : store.map some = posts.map marshal)
    (hdec : ∀ p ∈ posts, ∀ jj, marshal p = some jj → unmarshal jj = p) :
    store.map unmarshal = posts := by
  induction posts generalizing store with
  | nil =>
    cases store with
    | nil => rfl
    | cons a t => simp at h
  | cons p ps ih =>
    cases store with
    | nil => simp at h
    | cons a t =>
      simp only [List.map_cons, List.cons.injEq] at h
      rw [List.map_cons, hdec p (List.mem_cons_self _ _) a h.1.symm,
        ih t h.2 (fun q hq => hdec q (List.mem_cons_of_mem _ hq))]

/-- For a store whose record lines all fit the buffer of the scanner, `load`
returns the decoding of every record line, in order; when the decoder gives
back the post that each record was marshalled from, it returns the posts
written. -/
theorem load_of_fitting_store (indexFails : String → post → Bool)
    (unmarshal : String → post) (L : List String) (out : BuildOutput)
    (h : index indexFails L = some out)
    (hfit : ∀ r ∈ out.store, (r.data.map Char.utf8Size).sum < maxScanTokenSize) :
    load unmarshal (fileOfLines out.store) = out.store.map unmarshal ∧
      ((∀ p ∈ out.posts, ∀ jj, marshal p = some jj → unmarshal jj = p) →
        load unmarshal (fileOfLines out.store) = out.posts) := by
  obtain ⟨out1, h1, _, _, h4, _, _⟩ := index_closed indexFails L
  rw [h] at h1
  injection h1 with h1
  subst h1
  have hone : ∀ r ∈ out.store, (∀ x ∈ r.data, x ≠ '\n') ∧
      (r.data.map Char.utf8Size).sum < maxScanTokenSize ∧
      ∀ body, r.data ≠ body ++ ['\r'] := by
    intro r hr
    have hmem : some r ∈ out.store.map some := List.mem_map_of_mem _ hr
    rw [h4] at hmem
    obtain ⟨p, _, hp⟩ := List.mem_map.mp hmem
    obtain ⟨hnl, body, hbody⟩ := marshal_one_line p r hp
    refine ⟨hnl, hfit r hr, ?_⟩
    intro body2 hb2
    rw [hbody] at hb2
    have := congrArg List.getLast? hb2
    simp at this
  have hload : load unmarshal (fileOfLines out.store) = out.store.map unmarshal := by
    unfold load scanLines fileOfLines
    rw [scanTokens_fileOfLines _ _ hone]
  refine ⟨hload, ?_⟩
  intro hdec
  rw [hload]
  exact map_of_marshal unmarshal out.posts out.store h4 hdec

end ReinventRecap
